import Mathlib

/-!
Verification of the `::: ai` container pipeline of `markdownItAiContainer.ts`
(vscode-markdown-extended).

The development shallowly embeds the plugin's data model and operations:

* `aiContainerScan` / `findClosingLine` — the block locator (`aiContainer`),
* `extractLiteralBlockWithOffset` / `extractSimpleFieldWithOffset` /
  `dedentLines` / `parseAiYaml` — the field extractor,
* `limitLines` / `truncateMiddle` / `adjustSegmentLineNumbers` /
  `parseResponseWithInterrupts` — the content segmenter and interrupt
  analyzer,
* `renderWithLineOffset` / `renderSegments` / `generateAiContainerHTML` —
  the offset renderer and container assembler.

Strings are modelled by Lean `String` (lists of characters); JavaScript
character classes (`\s`, `\w`, `\d`) are modelled over the characters that
actually occur in markdown documents (ASCII plus NBSP for `\s`).  The
external recursive formatter `md.render` is a parameter of the rendering
functions; its output is connected to the position-attribute rewriting
through an explicit `HtmlPiece` decomposition.
-/

namespace AiSpec

/-! ### JavaScript character classes and string helpers -/

/-- JavaScript `\s` on the characters that occur in practice:
space, tab, newline, carriage return, vertical tab, form feed, NBSP. -/
def jsWs (c : Char) : Bool :=
  c = ' ' || c = '\t' || c = '\n' || c = '\r' ||
  c = '\x0b' || c = '\x0c' || c = ' '

/-- JavaScript `\w`: `[A-Za-z0-9_]`. -/
def jsWord (c : Char) : Bool :=
  ('a' ≤ c && c ≤ 'z') || ('A' ≤ c && c ≤ 'Z') || ('0' ≤ c && c ≤ '9') || c = '_'

/-- ASCII decimal digit, JavaScript `\d`. -/
def jsDigit (c : Char) : Bool := '0' ≤ c && c ≤ '9'

/-- Drop whitespace from the end of a character list. -/
def dropEndWs (l : List Char) : List Char :=
  (l.reverse.dropWhile jsWs).reverse

/-- JavaScript `String.prototype.trim` on a character list. -/
def jsTrimL (l : List Char) : List Char :=
  dropEndWs (l.dropWhile jsWs)

/-- JavaScript `String.prototype.trim`. -/
def jsTrim (s : String) : String := ⟨jsTrimL s.data⟩

/-- A line consisting only of whitespace (`line.trim() === ''`). -/
def blankLine (s : String) : Bool := s.data.all jsWs

/-- Length of the leading whitespace run: JS `line.match(/^(\s*)/)[1].length`. -/
def leadingWs (s : String) : Nat := (s.data.takeWhile jsWs).length

/-- Split a character list at `\n`, additionally removing a `\r` that
immediately precedes the `\n`: JavaScript `text.split(/\r?\n/)`. -/
def splitCRLF : List Char → List (List Char)
  | [] => [[]]
  | '\r' :: '\n' :: rest => [] :: splitCRLF rest
  | '\n' :: rest => [] :: splitCRLF rest
  | c :: rest =>
    match splitCRLF rest with
    | [] => [[c]]
    | l :: ls => (c :: l) :: ls

/-- JavaScript `text.split(/\r?\n/)` producing strings. -/
def linesCRLF (s : String) : List String := (splitCRLF s.data).map (⟨·⟩)

/-- Split a character list at `\n` only: JavaScript `text.split('\n')`. -/
def splitLF : List Char → List (List Char)
  | [] => [[]]
  | '\n' :: rest => [] :: splitLF rest
  | c :: rest =>
    match splitLF rest with
    | [] => [[c]]
    | l :: ls => (c :: l) :: ls

/-- JavaScript `text.split('\n')` producing strings. -/
def linesLF (s : String) : List String := (splitLF s.data).map (⟨·⟩)

/-- Join character-level lines with `\n`. -/
def joinNLc : List (List Char) → List Char
  | [] => []
  | [l] => l
  | l :: rest => l ++ '\n' :: joinNLc rest

/-- Join lines with `\n`: JavaScript `lines.join('\n')`. -/
def joinNL (ls : List String) : String :=
  ⟨joinNLc (ls.map String.data)⟩

/-! ### Decimal numerals (used by the template literals and by the
`data-line` rewriting, mirroring `${n}` and `parseInt(s, 10)`) -/

/-- The character of a single decimal digit. -/
def digitCh (d : Nat) : Char :=
  ['0', '1', '2', '3', '4', '5', '6', '7', '8', '9'].getD d '9'

/-- Numeric value of a decimal digit character. -/
def digitVal (c : Char) : Nat := c.toNat - 48

/-- Decimal numeral writer: `fuel` bounds the recursion depth. -/
def numeralAux : Nat → Nat → List Char
  | 0, _ => []
  | fuel + 1, n =>
    if n < 10 then [digitCh n]
    else numeralAux fuel (n / 10) ++ [digitCh (n % 10)]

/-- Decimal numeral of a natural number, most significant digit first. -/
def numeralOf (n : Nat) : List Char := numeralAux (n + 1) n

/-- Decimal string of a natural number (JS template `${n}`). -/
def natStr (n : Nat) : String := ⟨numeralOf n⟩

/-- Value of a list of decimal digit characters, most significant first
(JS `parseInt(s, 10)` on a digit-only string). -/
def digitsVal (cs : List Char) : Nat :=
  Nat.ofDigits 10 (cs.reverse.map digitVal)

/-! ### Segments (`TruncatedSegment`) -/

/-- `TruncatedSegment`: a slice of a field's text with source line tracking.
`lineStart`/`lineEnd` are 0-based line numbers relative to the field content,
or `-1` for synthetic skip markers. -/
structure TruncatedSegment where
  text : String
  lineStart : Int
  lineEnd : Int
  deriving Repr, DecidableEq

/-- `limitLines(text, count, fromStart)`: keep the first (or last) `count`
lines, appending (or prepending) a synthetic skip marker when truncated. -/
def limitLines (text : String) (count : Nat) (fromStart : Bool) :
    List TruncatedSegment :=
  if text = "" then []
  else
    let lines := linesCRLF text
    let totalLines := lines.length
    if totalLines ≤ count then
      [⟨text, 0, (totalLines : Int) - 1⟩]
    else
      let skipped := totalLines - count
      if fromStart then
        [⟨joinNL (lines.take count), 0, (count : Int) - 1⟩,
         ⟨"*... (" ++ natStr skipped ++ " more lines)*", -1, -1⟩]
      else
        let startLine := totalLines - count
        [⟨"*... (" ++ natStr skipped ++ " lines above)*", -1, -1⟩,
         ⟨joinNL (lines.drop startLine), (startLine : Int), (totalLines : Int) - 1⟩]

/-- `truncateMiddle(text, first, last)`: keep the first `first` and last
`last` lines with a synthetic marker between them when truncated. -/
def truncateMiddle (text : String) (first last : Nat) :
    List TruncatedSegment :=
  if text = "" then []
  else
    let lines := linesCRLF text
    let totalLines := lines.length
    if totalLines ≤ first + last then
      [⟨text, 0, (totalLines : Int) - 1⟩]
    else
      let lastStartLine := totalLines - last
      let skipped := totalLines - first - last
      [⟨joinNL (lines.take first), 0, (first : Int) - 1⟩,
       ⟨"*... (" ++ natStr skipped ++ " lines)*", -1, -1⟩,
       ⟨joinNL (lines.drop lastStartLine), (lastStartLine : Int), (totalLines : Int) - 1⟩]

/-- `adjustSegmentLineNumbers(segments, offset)`: shift mapped segments,
leave skip markers untouched. -/
def adjustSegmentLineNumbers (segments : List TruncatedSegment) (offset : Nat) :
    List TruncatedSegment :=
  segments.map fun seg =>
    { text := seg.text
      lineStart := if (0 : Int) ≤ seg.lineStart then seg.lineStart + (offset : Int) else -1
      lineEnd := if (0 : Int) ≤ seg.lineEnd then seg.lineEnd + (offset : Int) else -1 }

/-! ### Interrupt analysis (`parseResponseWithInterrupts`) -/

/-- ASCII uppercase letter (`[A-Z]`). -/
def ascUpper (c : Char) : Bool := 'A' ≤ c && c ≤ 'Z'

/-- ASCII lowercase letter (`[a-z]`). -/
def ascLower (c : Char) : Bool := 'a' ≤ c && c ≤ 'z'

/-- Test of `/^\s*\*\*Interrupt:\*\*\s*$/` on one line. -/
def interruptMarkerTest (l : String) : Bool :=
  let t := l.data.dropWhile jsWs
  let pat := "**Interrupt:**".data
  pat.isPrefixOf t && (t.drop pat.length).all jsWs

/-- Test of `/^\s*\*\*[A-Z][a-z]+:\*\*/` on one line: whitespace, `**`, one
uppercase letter, a maximal nonempty lowercase run, then `:**`. -/
def aiMarkerTest (l : String) : Bool :=
  let t := l.data.dropWhile jsWs
  match t with
  | '*' :: '*' :: c :: r =>
    ascUpper c &&
      (let low := r.takeWhile ascLower
       !low.isEmpty && ":**".data.isPrefixOf (r.drop low.length))
  | _ => false

/-- A line acceptable as the paired label of an interrupt: it passes
`aiMarkerTest` and is not the exact string `**Interrupt:**`. -/
def pairAccept (l : String) : Bool :=
  aiMarkerTest l && l ≠ "**Interrupt:**"

/-- Search from line `start` for the first line that passes `pairAccept`;
`-1` when there is none. -/
def findMarkerLine (lines : List String) (start : Nat) : Int :=
  match (lines.drop start).findIdx? pairAccept with
  | some k => (start + k : Nat)
  | none => -1

/-- All interrupt marker lines with their paired label line (`-1` = none). -/
def findInterrupts (lines : List String) : List (Nat × Int) :=
  (List.range lines.length).filterMap fun i =>
    if interruptMarkerTest (lines.getD i "") then
      some (i, findMarkerLine lines (i + 1))
    else none

/-- JS `lines.slice(a, b)`. -/
def sliceLines (lines : List String) (a b : Nat) : List String :=
  (lines.drop a).take (b - a)

/-- The segment-building loop of `parseResponseWithInterrupts`: walks the
interrupt list left to right, carrying `currentPos`. -/
def buildSegments (lines : List String) : Nat → List (Nat × Int) → List TruncatedSegment
  | _, [] => []
  | currentPos, (i, m) :: rest =>
    let pre :=
      if currentPos < i then
        adjustSegmentLineNumbers
          (truncateMiddle (joinNL (sliceLines lines currentPos i)) 4 8) currentPos
      else []
    let markerSeg : List TruncatedSegment := [⟨lines.getD i "", (i : Int), (i : Int)⟩]
    if (0 : Int) < m then
      let mn := m.toNat
      let contentStart := i + 1
      let contentText := jsTrim (joinNL (sliceLines lines contentStart mn))
      let contentSegs :=
        if contentText = "" then []
        else adjustSegmentLineNumbers (limitLines contentText 10 true) contentStart
      let aiSeg : List TruncatedSegment := [⟨lines.getD mn "", m, m⟩]
      let next := match rest with | [] => lines.length | (i2, _) :: _ => i2
      let afterSegs :=
        if mn + 1 < next then
          adjustSegmentLineNumbers
            (truncateMiddle (joinNL (sliceLines lines (mn + 1) next)) 4 8) (mn + 1)
        else []
      pre ++ markerSeg ++ contentSegs ++ aiSeg ++ afterSegs ++
        buildSegments lines next rest
    else
      let remainingStart := i + 1
      let remText := jsTrim (joinNL (lines.drop remainingStart))
      let remSegs :=
        if remText = "" then []
        else adjustSegmentLineNumbers (limitLines remText 10 true) remainingStart
      pre ++ markerSeg ++ remSegs ++ buildSegments lines lines.length rest

/-- `parseResponseWithInterrupts(text)`: segment the response field around
`**Interrupt:**` markers; without interrupts fall back to `Tail(10)`. -/
def parseResponseWithInterrupts (text : String) : List TruncatedSegment :=
  if text = "" then []
  else
    let lines := linesCRLF text
    let interrupts := findInterrupts lines
    if interrupts = [] then limitLines text 10 false
    else buildSegments lines 0 interrupts

/-! ### Field extraction (`extractLiteralBlockWithOffset`,
`extractSimpleFieldWithOffset`, `dedentLines`, `parseAiYaml`)

The extraction regexes are applied by the source with the `m` flag to the
whole content string, so `\s*` may cross line boundaries.  The embeddings
below reproduce that: a match of `^\s*name:\s*\|\s*$` is anchored at the
start of the maximal run of blank lines preceding the key line (this run is
consumed by the leading `\s*`, which determines `match.index` and hence the
reported `lineOffset`), the `\s*` between `:` and `|` may carry the `|` to a
later line, and the trailing `\s*$` consumes any blank lines that follow,
leaving `startPos` just before the last newline of that run. -/

/-- A parsed field: extracted text plus line offset into the raw content. -/
structure ParsedAiField where
  content : String
  lineOffset : Nat
  deriving Repr, DecidableEq

/-- Parsed `::: ai` data. -/
structure ParsedAiData where
  prompt : ParsedAiField
  model : ParsedAiField
  response : ParsedAiField
  deriving Repr, DecidableEq

/-- Length of the maximal run of all-whitespace lines immediately before
line `j`; the leading `\s*` of a multiline match extends over this run, so
`match.index` sits at the start of the run. -/
def blankRunBefore (lines : List String) (j : Nat) : Nat :=
  ((lines.take j).reverse.takeWhile blankLine).length

/-- `lines[j]` is `ws* name ':' ws* '|' ws*` — the literal opener on a
single line. -/
def literalOpenerLine (name : String) (l : String) : Bool :=
  let t := l.data.dropWhile jsWs
  (name.data ++ [':']).isPrefixOf t &&
    (match (t.drop (name.length + 1)).dropWhile jsWs with
     | '|' :: r2 => r2.all jsWs
     | _ => false)

/-- `lines[j]` is `ws* name ':' ws*` with nothing else on the line. -/
def keyOnlyLine (name : String) (l : String) : Bool :=
  let t := l.data.dropWhile jsWs
  (name.data ++ [':']).isPrefixOf t && (t.drop (name.length + 1)).all jsWs

/-- `lines[j]` is `ws* '|' ws*`. -/
def pipeOnlyLine (l : String) : Bool :=
  match l.data.dropWhile jsWs with
  | '|' :: r => r.all jsWs
  | _ => false

/-- Index of the first non-blank line at or after `start`. -/
def firstNonBlankFrom (lines : List String) (start : Nat) : Option Nat :=
  match (lines.drop start).findIdx? (fun l => !blankLine l) with
  | some k => some (start + k)
  | none => none

/-- When a match of `^\s*name:\s*\|\s*$` begins at line `j`, return the
line holding the `|` (the `\s*` after the colon may carry it to the first
non-blank line after `j`). -/
def literalOpenAt (name : String) (lines : List String) (j : Nat) : Option Nat :=
  if literalOpenerLine name (lines.getD j "") then some j
  else if keyOnlyLine name (lines.getD j "") then
    match firstNonBlankFrom lines (j + 1) with
    | some k => if pipeOnlyLine (lines.getD k "") then some k else none
    | none => none
  else none

/-- Leftmost match of the literal-opener regex: the first line `j` that
starts a match, paired with the line carrying the `|`. -/
def findLiteralOpen (name : String) (lines : List String) : Option (Nat × Nat) :=
  (List.range lines.length).findSome? fun j =>
    (literalOpenAt name lines j).map fun k => (j, k)

/-- Test of the sibling-key pattern `/^\s*\w+:\s*/` on one line. -/
def isSiblingKey (l : String) : Bool :=
  let t := l.data.dropWhile jsWs
  let w := t.takeWhile jsWord
  !w.isEmpty &&
    (match t.drop w.length with
     | ':' :: _ => true
     | _ => false)

/-- The literal-block collection loop: the `Option Nat` is the base indent
(`null` until the first non-blank line fixes it).  Blank lines are pushed
as `''`; collection stops at a line with smaller indentation that looks
like a YAML key, or — before any base indent exists — at an unindented
line. -/
def collectGo : Option Nat → List String → List String
  | _, [] => []
  | none, l :: rest =>
    if blankLine l then "" :: collectGo none rest
    else
      let ind := leadingWs l
      if ind = 0 then []
      else l :: collectGo (some ind) rest
  | some k, l :: rest =>
    if blankLine l then "" :: collectGo (some k) rest
    else if leadingWs l < k && isSiblingKey l then []
    else l :: collectGo (some k) rest

/-- `dedentLines(lines)`: strip the minimum indentation of the non-blank
lines, blank lines become empty, result is joined and trimmed. -/
def dedentLines (lines : List String) : String :=
  if lines.isEmpty then ""
  else
    let indents := (lines.filter (fun l => !blankLine l)).map leadingWs
    match indents with
    | [] => jsTrim (joinNL lines)
    | x :: xs =>
      let minIndent := xs.foldl min x
      jsTrim (joinNL (lines.map fun l =>
        if blankLine l then "" else ⟨l.data.drop minIndent⟩))

/-- The lines the collection loop runs on, given that the matched opener's
`|` sits on line `k`: the trailing `\s*$` of the match swallows the blank
lines after line `k` up to (but excluding) the last newline of that run, so
`content.substring(startPos).split('\n')` starts with one empty line
followed by the remaining lines. -/
def literalTailLines (lines : List String) (k : Nat) : List String :=
  "" :: (lines.drop (k + 1)).dropWhile blankLine

/-- `extractLiteralBlockWithOffset(content, fieldName, baseLineOffset)`. -/
def extractLiteralBlockWithOffset (content : String) (name : String)
    (baseLineOffset : Nat) : ParsedAiField :=
  let ls := linesLF content
  match findLiteralOpen name ls with
  | none => ⟨"", 0⟩
  | some (j, k) =>
    ⟨dedentLines (collectGo none (literalTailLines ls k)),
     baseLineOffset + (j - blankRunBefore ls j)⟩

/-- The rest of line `j` after `ws* name ':'`. -/
def restAfterKey (name : String) (l : String) : String :=
  ⟨(l.data.dropWhile jsWs).drop (name.length + 1)⟩

/-- `lines[j]` begins a match of `^\s*name:\s*(.+?)\s*$`: the key prefix is
present and some non-newline character follows the colon (possibly on a
later line, reached by the multiline `\s*`). -/
def simpleMatchAt (name : String) (lines : List String) (j : Nat) : Bool :=
  (name.data ++ [':']).isPrefixOf ((lines.getD j "").data.dropWhile jsWs) &&
    (restAfterKey name (lines.getD j "") ≠ "" ||
      (lines.drop (j + 1)).any (· ≠ ""))

/-- The captured value of a match beginning at line `j`: the trimmed first
non-blank pseudo-line among the rest of line `j` and the following lines
(`""` when only stray whitespace is captured). -/
def simpleValueAt (name : String) (lines : List String) (j : Nat) : String :=
  match (restAfterKey name (lines.getD j "") :: lines.drop (j + 1)).find?
      (fun l => !blankLine l) with
  | some l => jsTrim l
  | none => ""

/-- `extractSimpleFieldWithOffset(content, fieldName, baseLineOffset)`. -/
def extractSimpleFieldWithOffset (content : String) (name : String)
    (baseLineOffset : Nat) : ParsedAiField :=
  let ls := linesLF content
  match (List.range ls.length).find? (fun j => simpleMatchAt name ls j) with
  | none => ⟨"", 0⟩
  | some j => ⟨simpleValueAt name ls j, baseLineOffset + (j - blankRunBefore ls j)⟩

/-- First index at which `pat` occurs in `cs` (JS `indexOf`). -/
def firstOccIdx (cs pat : List Char) : Option Nat :=
  match cs with
  | [] => if pat.isEmpty then some 0 else none
  | _ :: rest =>
    if pat.isPrefixOf cs then some 0
    else (firstOccIdx rest pat).map (· + 1)

/-- A match of `^\s*-\s+` starting at the current position: leading
whitespace, a dash, then at least one whitespace character (both runs may
cross newlines).  Returns the matched string. -/
def dashMatchAt (cs : List Char) : Option (List Char) :=
  let w := cs.takeWhile jsWs
  match cs.drop w.length with
  | '-' :: r2 =>
    let w2 := r2.takeWhile jsWs
    if w2.isEmpty then none else some (w ++ '-' :: w2)
  | _ => none

/-- Leftmost multiline match of `^\s*-\s+`: scan positions left to right,
attempting a match only at line starts. -/
def findDashGo : Bool → List Char → Option (List Char)
  | _, [] => none
  | atLineStart, c :: rest =>
    match (if atLineStart then dashMatchAt (c :: rest) else none) with
    | some s => some s
    | none => findDashGo (c = '\n') rest

/-- `parseAiYaml(content)`: optionally descend into the first `versions:`
array item, then extract the three fields. -/
def parseAiYaml (content : String) : ParsedAiData :=
  let useVersions := (linesLF content).any (keyOnlyLine "versions")
  let wc :=
    if useVersions then
      match findDashGo true content.data with
      | some s =>
        match firstOccIdx content.data s with
        | some idx =>
          ((⟨content.data.drop (idx + s.length)⟩ : String),
            (content.data.take idx).count '\n')
        | none => (content, 0)
      | none => (content, 0)
    else (content, 0)
  ⟨extractLiteralBlockWithOffset wc.1 "prompt" wc.2,
   extractSimpleFieldWithOffset wc.1 "model" wc.2,
   extractLiteralBlockWithOffset wc.1 "response" wc.2⟩

/-! ### Offset rendering (`renderWithLineOffset`, `renderSegments`) and
container assembly (`generateAiContainerHTML`)

The external recursive formatter `md.render` is passed in as a function
`mdRender : String → String`.  The `data-line` rewrite of
`renderWithLineOffset` is the global regex replace
`/data-line="(\d+)"/g → data-line="(value + lineOffset)"`, embedded as the
character-level scanner `scanRewrite`. -/

/-- `escapeHtml`: the five sequential replaces act character by character. -/
def escChar (c : Char) : List Char :=
  if c = '&' then "&amp;".data
  else if c = '<' then "&lt;".data
  else if c = '>' then "&gt;".data
  else if c = '"' then "&quot;".data
  else if c = '\'' then "&#039;".data
  else [c]

/-- JS `escapeHtml(str)`. -/
def escapeHtml (s : String) : String :=
  ⟨s.data.foldr (fun c acc => escChar c ++ acc) []⟩

/-- The literal part of the position-attribute pattern `data-line="`. -/
def litPat : List Char := "data-line=\"".data

/-- Attempt to match `data-line="(\d+)"` at the head of `cs`; on success
return the numeric value and the characters after the closing quote. -/
def attrAt (cs : List Char) : Option (Nat × List Char) :=
  if litPat.isPrefixOf cs then
    if ((cs.drop litPat.length).takeWhile jsDigit).isEmpty then none
    else
      match (cs.drop litPat.length).drop
          ((cs.drop litPat.length).takeWhile jsDigit).length with
      | '"' :: tail =>
        some (digitsVal ((cs.drop litPat.length).takeWhile jsDigit), tail)
      | _ => none
  else none

/-- The scanning loop of the global replace, with explicit fuel (one unit
per character position, enough because every step consumes at least one
character). -/
def scanGo (off : Nat) : Nat → List Char → List Char
  | 0, cs => cs
  | _ + 1, [] => []
  | fuel + 1, c :: rest =>
    match attrAt (c :: rest) with
    | some (v, tail) =>
      litPat ++ numeralOf (v + off) ++ '"' :: scanGo off fuel tail
    | none => c :: scanGo off fuel rest

/-- The global replace `html.replace(/data-line="(\d+)"/g, ...)` with the
replacement `data-line="(n + off)"`: scan left to right, rewriting each
non-overlapping occurrence of the pattern. -/
def scanRewrite (off : Nat) (cs : List Char) : List Char :=
  scanGo off cs.length cs

/-- `renderWithLineOffset(md, content, lineOffset, env)`. -/
def renderWithLineOffset (mdRender : String → String) (content : String)
    (lineOffset : Nat) : String :=
  if content = "" then ""
  else ⟨scanRewrite lineOffset (mdRender content).data⟩

/-- The hard-line-break preproc= `text.split('\n').map(l => l + '  ').join('\n')`. -/
def textWithBreaks (s : String) : String :=
  joinNL ((linesLF s).map (· ++ "  "))

/-- `renderSegments(md, segments, baseLineOffset, env)`. -/
def renderSegments (mdRender : String → String)
    (segments : List TruncatedSegment) (baseLineOffset : Nat) : String :=
  joinNL (segments.map fun seg =>
    if seg.lineStart < 0 then
      "<p class=\"truncation-marker\">" ++ escapeHtml seg.text ++ "</p>"
    else
      renderWithLineOffset mdRender (textWithBreaks seg.text)
        (baseLineOffset + seg.lineStart.toNat))

/-- `generateAiContainerHTML(rawContent, md, env, sourceLine)`.  The
`try/catch` of the source cannot fire (`parseAiYaml` is total), so the
error branch for a parse exception is not modelled. -/
def generateAiContainerHTML (rawContent : String) (mdRender : String → String)
    (sourceLine : Nat) : String :=
  if rawContent = "" then
    "<div class=\"ai-container ai-error\" data-line=\"" ++ natStr sourceLine ++
      "\">\n  <p><strong>Empty AI container</strong> (no YAML content)</p>\n</div>\n"
  else
    let aiData := parseAiYaml rawContent
    let promptLine := sourceLine + 1 + aiData.prompt.lineOffset
    let responseLine := sourceLine + 1 + aiData.response.lineOffset
    let promptSegments := limitLines aiData.prompt.content 10 true
    let responseSegments := parseResponseWithInterrupts aiData.response.content
    let promptHtml := renderSegments mdRender promptSegments (promptLine + 1)
    let responseHtml := renderSegments mdRender responseSegments (responseLine + 1)
    "<fieldset class=\"ai-container\" data-line=\"" ++ natStr sourceLine ++
      "\">\n  <legend>ai</legend>\n  <div class=\"ai-prompt\" data-line=\"" ++
      natStr promptLine ++ "\">" ++ promptHtml ++
      "</div>\n  <hr class=\"ai-separator\">\n  <div class=\"ai-response\" data-line=\"" ++
      natStr responseLine ++ "\">" ++ responseHtml ++ "</div>\n</fieldset>\n"

/-! ### Block locator (`aiContainer`) -/

/-- The opening-marker check of `aiContainer`: indentation below 4, at
least three `:` characters, and remaining parameters trimming to `ai`. -/
def aiOpenerCheck (l : String) : Bool :=
  let sh := leadingWs l
  sh < 4 &&
    (let t := l.data.drop sh
     let colons := t.takeWhile (· = ':')
     3 ≤ colons.length && jsTrim ⟨t.drop colons.length⟩ = "ai")

/-- The closing-marker scan: the first line after `startLine` and before
`endLine` whose trimmed content is exactly `:::`; if none, the loop runs to
`max (startLine + 1) endLine` and the block auto-closes there. -/
def findClosingLine (lines : List String) (startLine endLine : Nat) : Nat :=
  (((List.range endLine).drop (startLine + 1)).find?
      (fun j => jsTrim (lines.getD j "") = ":::")).getD (max (startLine + 1) endLine)

/-- The host's source string: document lines joined by newlines. -/
def srcOf (lines : List String) : String := joinNL lines

/-- markdown-it `bMarks[i]`: offset of the start of line `i`, with the
sentinel entry `bMarks[lineCount] = src.length`. -/
def bMark (lines : List String) (i : Nat) : Nat :=
  if i < lines.length then ((lines.take i).map String.length).sum + i
  else (srcOf lines).length

/-- markdown-it `eMarks[i]`: offset of the end of line `i` (before its
newline), with the same sentinel. -/
def eMark (lines : List String) (i : Nat) : Nat :=
  if i < lines.length then bMark lines i + (lines.getD i "").length
  else (srcOf lines).length

/-- JS `src.slice(a, b)`. -/
def sliceStr (s : String) (a b : Nat) : String := ⟨(s.data.take b).drop a⟩

/-- The verbatim text of the document strictly between the opening marker
line and the closing marker line: `src.slice(eMarks[startLine],
bMarks[closingLine])`, newlines included. -/
def verbatimBetween (lines : List String) (startLine closingLine : Nat) : String :=
  sliceStr (srcOf lines) (eMark lines startLine) (bMark lines closingLine)

/-- The non-silent path of `aiContainer`: on a valid opener, locate the
closing line, cut and trim the raw content, and generate the HTML; returns
`none` when the opener does not match (host falls back to default rules). -/
def aiContainer (lines : List String) (startLine endLine : Nat)
    (mdRender : String → String) : Option (Nat × String × String) :=
  if aiOpenerCheck (lines.getD startLine "") then
    let closingLine := findClosingLine lines startLine endLine
    let rawContent := jsTrim (verbatimBetween lines startLine closingLine)
    some (closingLine, rawContent, generateAiContainerHTML rawContent mdRender startLine)
  else none

/-! ### Specification-side notions used by the claims -/

/-- Number of lines of a text under the `\r?\n` convention. -/
def numLines (s : String) : Nat := (linesCRLF s).length

/-- The `(sourceLineStart, sourceLineEnd)` pairs of the mapped segments of
a segment list, in emission order. -/
def mappedRanges (segs : List TruncatedSegment) : List (Int × Int) :=
  segs.filterMap fun s =>
    if (0 : Int) ≤ s.lineStart then some (s.lineStart, s.lineEnd) else none

/-- The ordering invariant on mapped ranges: each range is well-formed and
begins strictly after the previous range ends (so starts are increasing and
ranges are pairwise disjoint), with all values at least `lo`. -/
def chainFrom : Int → List (Int × Int) → Bool
  | _, [] => true
  | lo, (a, b) :: r => lo ≤ a && a ≤ b && chainFrom (b + 1) r

/-- As `chainFrom`, additionally bounding every range by `hi`. -/
def chainBetween : Int → Int → List (Int × Int) → Bool
  | _, _, [] => true
  | lo, hi, (a, b) :: r => lo ≤ a && a ≤ b && b ≤ hi && chainBetween (b + 1) hi r

/-- Well-separated interrupt structure: walking the interrupt list from
`cur`, every interrupt line lies at or after `cur` and inside the line
range, every paired label lies strictly between its interrupt and the next
interrupt (or the end of the lines), and an unpaired interrupt is last. -/
def sepOK (lines : List String) : Nat → List (Nat × Int) → Bool
  | _, [] => true
  | cur, (i, m) :: rest =>
    let next := match rest with | [] => lines.length | (i2, _) :: _ => i2
    cur ≤ i && i < lines.length &&
      (if (0 : Int) < m then
        decide (i < m.toNat) && decide (m.toNat < next) && sepOK lines next rest
      else rest.isEmpty)

/-- The sibling-key stop condition of the literal-block loop, relative to a
base indent `k`: strictly smaller indentation and a YAML-key shape. -/
def stopperB (k : Nat) (l : String) : Bool :=
  decide (leadingWs l < k) && isSiblingKey l

/-- Blank lines are collected as empty strings by the literal-block loop. -/
def normBlank (l : String) : String := if blankLine l then "" else l

/-- Substring test (JS `String.prototype.includes`). -/
def containsSub : List Char → List Char → Bool
  | cs, pat =>
    pat.isPrefixOf cs ||
      match cs with
      | [] => false
      | _ :: t => containsSub t pat

/-- String-level substring test. -/
def containsStr (s pat : String) : Bool := containsSub s.data pat.data

/-! ### The formatter-output decomposition used to specify the `data-line`
rewrite: a rendered fragment is an interleaving of plain text chunks and
well-formed position attributes. -/

/-- One piece of formatter output: plain markup text, or a position
attribute `data-line="n"`. -/
inductive HtmlPiece where
  | text (s : String)
  | attr (n : Nat)
  deriving Repr, DecidableEq

/-- The characters of one piece. -/
def pieceStr : HtmlPiece → List Char
  | .text s => s.data
  | .attr n => litPat ++ numeralOf n ++ ['"']

/-- The characters of a piece list. -/
def piecesStr (ps : List HtmlPiece) : List Char :=
  ps.foldr (fun p acc => pieceStr p ++ acc) []

/-- Shift every position attribute by `off`, leaving text untouched. -/
def shiftPieces (off : Nat) (ps : List HtmlPiece) : List HtmlPiece :=
  ps.map fun p =>
    match p with
    | .attr n => .attr (n + off)
    | .text s => .text s

/-- No position of `s` starts an occurrence of `data-line="` in `s ++ tail`:
the text chunk cannot fake or interfere with a position attribute. -/
def noLitStartWithin (s tail : List Char) : Bool :=
  (List.range s.length).all fun p => !(litPat.isPrefixOf ((s ++ tail).drop p))

/-- Every text chunk of the piece list is clean with respect to what
follows it. -/
def safePieces : List HtmlPiece → Bool
  | [] => true
  | .attr _ :: rest => safePieces rest
  | .text s :: rest => noLitStartWithin s.data (piecesStr rest) && safePieces rest

/-- Concrete raw content used to witness the container-assembly claims. -/
def c2raw : String := "junk\nprompt: |\n  hi\nmodel: m\nresponse: |\n  ok"

/-!
## Theorems

### C7 — segmentation below the window threshold
-/

/-- C7 counterexample: the empty field text has one line (which is at or
below every window size used), yet `limitLines` and `truncateMiddle`
return zero segments rather than exactly one mapped segment. -/
theorem c7_counterexample :
    numLines "" ≤ 10 ∧ limitLines "" 10 true = [] ∧
      limitLines "" 10 false = [] ∧ truncateMiddle "" 4 8 = [] := by decide

/-- C7 (amended): for every *nonempty* field text whose line count is at
most the window size — `count` for `Head`/`Tail`, `first + last` for
`HeadTail` — segmentation returns exactly one mapped segment spanning the
whole field and no synthetic segment. -/
theorem c7_below_threshold (text : String) (count first last : Nat)
    (fromStart : Bool) (h : text ≠ "") :
    (numLines text ≤ count →
      limitLines text count fromStart = [⟨text, 0, (numLines text : Int) - 1⟩]) ∧
    (numLines text ≤ first + last →
      truncateMiddle text first last = [⟨text, 0, (numLines text : Int) - 1⟩]) := by
  constructor <;> intro hle <;>
    simp only [limitLines, truncateMiddle, numLines, linesCRLF] at hle ⊢ <;>
    rw [if_neg h, if_pos hle]

/-- Witness for `c7_below_threshold` at the three-line field of Scenario A. -/
theorem c7_below_threshold_witness :
    limitLines "A\nB\nC" 10 true = [⟨"A\nB\nC", 0, 2⟩] ∧
      truncateMiddle "A\nB\nC" 4 8 = [⟨"A\nB\nC", 0, 2⟩] :=
  ⟨(c7_below_threshold "A\nB\nC" 10 4 8 true (by decide)).1 (by decide),
   (c7_below_threshold "A\nB\nC" 10 4 8 true (by decide)).2 (by decide)⟩

/-! ### C5 — auto-close at document end -/

/-- C5: when a valid opener sits at `startLine` and no line before
`endLine` trims to `:::`, the block closes at `endLine` (the document
end), the pipeline still produces its output, and no error is reported. -/
theorem c5_autoclose (lines : List String) (startLine endLine : Nat)
    (mdRender : String → String)
    (hopen : aiOpenerCheck (lines.getD startLine "") = true)
    (hlt : startLine < endLine)
    (hnoclose : ∀ j, startLine < j → j < endLine → jsTrim (lines.getD j "") ≠ ":::") :
    aiContainer lines startLine endLine mdRender =
      some (endLine, jsTrim (verbatimBetween lines startLine endLine),
        generateAiContainerHTML (jsTrim (verbatimBetween lines startLine endLine))
          mdRender startLine) := by
  have hfind : findClosingLine lines startLine endLine = endLine := by
    unfold findClosingLine
    have hnone : ((List.range endLine).drop (startLine + 1)).find?
        (fun j => jsTrim (lines.getD j "") = ":::") = none := by
      rw [List.find?_eq_none]
      intro j hj
      have hj2 : j ∈ List.range endLine := List.mem_of_mem_drop hj
      have hj3 : j < endLine := List.mem_range.mp hj2
      have hj4 : startLine + 1 ≤ j := by
        rcases List.mem_drop_iff_getElem.mp hj with ⟨k, hk, hget⟩
        rw [List.getElem_range] at hget
        omega
      simp only [decide_eq_true_eq]
      exact hnoclose j (by omega) hj3
    rw [hnone, Option.getD_none]
    omega
  simp only [aiContainer, hopen, if_true, hfind]

/-- Witness for `c5_autoclose`: a block opened at absolute line 7 of a
10-line document auto-closes with `endLine = 10`. -/
theorem c5_autoclose_witness :
    aiContainer ["a", "b", "c", "d", "e", "f", "g", "::: ai", "prompt: |", "  hi"]
        7 10 (fun _ => "") =
      some (10, "prompt: |\n  hi",
        generateAiContainerHTML "prompt: |\n  hi" (fun _ => "") 7) := by
  have h := c5_autoclose
    ["a", "b", "c", "d", "e", "f", "g", "::: ai", "prompt: |", "  hi"] 7 10
    (fun _ => "") (by decide) (by decide)
    (by intro j h1 h2; interval_cases j <;> decide)
  have e : jsTrim (verbatimBetween
      ["a", "b", "c", "d", "e", "f", "g", "::: ai", "prompt: |", "  hi"] 7 10) =
      "prompt: |\n  hi" := by decide
  rw [e] at h
  exact h

/-! ### C8 — raw content between the markers -/

/-- C8 counterexample: for an indented content line, the raw content kept
by the locator is the *trimmed* text, not the verbatim text strictly
between the marker lines (under either reading, with or without the
bounding newlines). -/
theorem c8_counterexample :
    (aiContainer ["::: ai", "  x", ":::"] 0 3 (fun _ => "")).map (fun r => r.2.1) =
        some "x" ∧
      verbatimBetween ["::: ai", "  x", ":::"] 0 2 = "\n  x\n" ∧
      ("x" : String) ≠ "\n  x\n" ∧ ("x" : String) ≠ "  x" := by decide

/-- C8 (amended): for every block the locator accepts, `rawContent` is the
text strictly between the opening marker line and the closing line (or
document end) with leading and trailing whitespace removed
(`src.slice(eMarks[startLine], bMarks[closingLine]).trim()`). -/
theorem c8_raw_is_trimmed_between (lines : List String) (startLine endLine : Nat)
    (mdRender : String → String)
    (hopen : aiOpenerCheck (lines.getD startLine "") = true) :
    (aiContainer lines startLine endLine mdRender).map (fun r => r.2.1) =
      some (jsTrim (verbatimBetween lines startLine
        (findClosingLine lines startLine endLine))) := by
  simp only [aiContainer, hopen, if_true]
  rfl

/-- Witness for `c8_raw_is_trimmed_between` on an unindented document. -/
theorem c8_raw_is_trimmed_between_witness :
    (aiContainer ["::: ai", "x", ":::"] 0 3 (fun _ => "")).map (fun r => r.2.1) =
      some "x" :=
  (c8_raw_is_trimmed_between ["::: ai", "x", ":::"] 0 3 (fun _ => "")
    (by decide)).trans (by decide)

/-! ### C2 — field wrapper line numbers -/

/-- C2: for a block whose opening marker sits at absolute line `s`, the
assembled fragment tags the prompt field wrapper with
`s + 1 + promptOffset` and the response field wrapper with
`s + 1 + responseOffset`, the offsets being those extracted for the
fields. -/
theorem c2_field_wrapper_line (raw : String) (mdRender : String → String)
    (s : Nat) (h : raw ≠ "") :
    ∃ promptHtml responseHtml : String,
      generateAiContainerHTML raw mdRender s =
        "<fieldset class=\"ai-container\" data-line=\"" ++ natStr s ++
        "\">\n  <legend>ai</legend>\n  <div class=\"ai-prompt\" data-line=\"" ++
        natStr (s + 1 + (parseAiYaml raw).prompt.lineOffset) ++ "\">" ++ promptHtml ++
        "</div>\n  <hr class=\"ai-separator\">\n  <div class=\"ai-response\" data-line=\"" ++
        natStr (s + 1 + (parseAiYaml raw).response.lineOffset) ++ "\">" ++ responseHtml ++
        "</div>\n</fieldset>\n" := by
  refine ⟨renderSegments mdRender (limitLines (parseAiYaml raw).prompt.content 10 true)
      (s + 1 + (parseAiYaml raw).prompt.lineOffset + 1),
    renderSegments mdRender (parseResponseWithInterrupts (parseAiYaml raw).response.content)
      (s + 1 + (parseAiYaml raw).response.lineOffset + 1), ?_⟩
  simp only [generateAiContainerHTML, if_neg h]

/-- Witness for `c2_field_wrapper_line`: prompt on content line 1 and
response on content line 4 of a block at line 3 give wrappers tagged 5
and 8. -/
theorem c2_field_wrapper_line_witness :
    (parseAiYaml c2raw).prompt.lineOffset = 1 ∧
      (parseAiYaml c2raw).response.lineOffset = 4 ∧
      ∃ promptHtml responseHtml : String,
        generateAiContainerHTML c2raw (fun _ => "") 3 =
          "<fieldset class=\"ai-container\" data-line=\"" ++ natStr 3 ++
          "\">\n  <legend>ai</legend>\n  <div class=\"ai-prompt\" data-line=\"" ++
          natStr (3 + 1 + (parseAiYaml c2raw).prompt.lineOffset) ++ "\">" ++ promptHtml ++
          "</div>\n  <hr class=\"ai-separator\">\n  <div class=\"ai-response\" data-line=\"" ++
          natStr (3 + 1 + (parseAiYaml c2raw).response.lineOffset) ++ "\">" ++ responseHtml ++
          "</div>\n</fieldset>\n" :=
  ⟨by decide, by decide, c2_field_wrapper_line c2raw (fun _ => "") 3 (by decide)⟩

/-! ### Search helper lemmas -/

theorem findSome?_range'_of_first {α : Type} (f : Nat → Option α) :
    ∀ (n s j : Nat), s ≤ j → j < s + n → (∀ i, s ≤ i → i < j → f i = none) →
      f j ≠ none → (List.range' s n).findSome? f = f j := by
  intro n
  induction n with
  | zero => intro s j h1 h2 _ _; omega
  | succ n ih =>
    intro s j h1 h2 hnone hj
    rw [List.range'_succ, List.findSome?_cons]
    by_cases hsj : s = j
    · subst hsj
      cases h : f s with
      | some b => simp [h]
      | none => exact absurd h hj
    · have hs : f s = none := hnone s le_rfl (by omega)
      simp only [hs]
      exact ih (s + 1) j (by omega) (by omega)
        (fun i hi1 hi2 => hnone i (by omega) hi2) hj

theorem findSome?_range_of_first {α : Type} (f : Nat → Option α) (n j : Nat)
    (hj : j < n) (hnone : ∀ i, i < j → f i = none) (hsome : f j ≠ none) :
    (List.range n).findSome? f = f j := by
  rw [List.range_eq_range']
  exact findSome?_range'_of_first f n 0 j (Nat.zero_le _) (by omega)
    (fun i _ hi => hnone i hi) hsome

theorem find?_range'_of_first (p : Nat → Bool) :
    ∀ (n s j : Nat), s ≤ j → j < s + n → (∀ i, s ≤ i → i < j → p i = false) →
      p j = true → (List.range' s n).find? p = some j := by
  intro n
  induction n with
  | zero => intro s j h1 h2 _ _; omega
  | succ n ih =>
    intro s j h1 h2 hnone hj
    rw [List.range'_succ, List.find?_cons]
    by_cases hsj : s = j
    · subst hsj
      simp [hj]
    · have hs : p s = false := hnone s le_rfl (by omega)
      simp only [hs]
      exact ih (s + 1) j (by omega) (by omega)
        (fun i hi1 hi2 => hnone i (by omega) hi2) hj

theorem find?_range_of_first (p : Nat → Bool) (n j : Nat)
    (hj : j < n) (hnone : ∀ i, i < j → p i = false) (hp : p j = true) :
    (List.range n).find? p = some j := by
  rw [List.range_eq_range']
  exact find?_range'_of_first p n 0 j (Nat.zero_le _) (by omega)
    (fun i _ hi => hnone i hi) hp

theorem dropWhile_head_false {α : Type} {p : α → Bool} :
    ∀ {xs : List α} {a : α} {t : List α}, xs.dropWhile p = a :: t → p a = false := by
  intro xs
  induction xs with
  | nil => intro a t h; exact absurd h (by simp)
  | cons x xs ih =>
    intro a t h
    rw [List.dropWhile_cons] at h
    split at h
    · exact ih h
    · rename_i hpx
      cases h
      simpa using hpx

/-! ### Extractor helper lemmas -/

theorem emptyStr_data : ("" : String).data = [] := rfl

theorem prefixKey_empty_false (name : String) :
    (name.data ++ [':']).isPrefixOf (("" : String).data.dropWhile jsWs) = false := by
  simp [List.isPrefixOf_iff_prefix, emptyStr_data]

theorem literalOpenAt_none_of_ge (name : String) (ls : List String) (j : Nat)
    (hj : ls.length ≤ j) : literalOpenAt name ls j = none := by
  have hd : ls.getD j "" = "" := List.getD_eq_default ls "" hj
  unfold literalOpenAt
  rw [hd]
  have h1 : literalOpenerLine name "" = false := by
    simp [literalOpenerLine, prefixKey_empty_false name]
  have h2 : keyOnlyLine name "" = false := by
    simp [keyOnlyLine, prefixKey_empty_false name]
  simp [h1, h2]

theorem simpleMatchAt_false_of_ge (name : String) (ls : List String) (j : Nat)
    (hj : ls.length ≤ j) : simpleMatchAt name ls j = false := by
  have hd : ls.getD j "" = "" := List.getD_eq_default ls "" hj
  unfold simpleMatchAt
  rw [hd]
  simp [prefixKey_empty_false name]

theorem extractLiteral_first (content name : String) (b j k : Nat)
    (hopen : literalOpenAt name (linesLF content) j = some k)
    (hfirst : ∀ i, i < j → literalOpenAt name (linesLF content) i = none) :
    extractLiteralBlockWithOffset content name b =
      ⟨dedentLines (collectGo none (literalTailLines (linesLF content) k)),
       b + (j - blankRunBefore (linesLF content) j)⟩ := by
  have hj : j < (linesLF content).length := by
    by_contra hcon
    push_neg at hcon
    rw [literalOpenAt_none_of_ge name _ j hcon] at hopen
    exact absurd hopen (by simp)
  have hf : findLiteralOpen name (linesLF content) = some (j, k) := by
    unfold findLiteralOpen
    rw [findSome?_range_of_first _ _ j hj
      (fun i hi => by rw [hfirst i hi]; rfl) (by rw [hopen]; simp)]
    rw [hopen]
    rfl
  simp only [extractLiteralBlockWithOffset]
  rw [hf]

theorem extractSimple_first (content name : String) (b j : Nat)
    (hmatch : simpleMatchAt name (linesLF content) j = true)
    (hfirst : ∀ i, i < j → simpleMatchAt name (linesLF content) i = false) :
    extractSimpleFieldWithOffset content name b =
      ⟨simpleValueAt name (linesLF content) j,
       b + (j - blankRunBefore (linesLF content) j)⟩ := by
  have hj : j < (linesLF content).length := by
    by_contra hcon
    push_neg at hcon
    rw [simpleMatchAt_false_of_ge name _ j hcon] at hmatch
    exact absurd hmatch (by simp)
  have hf : (List.range (linesLF content).length).find?
      (simpleMatchAt name (linesLF content)) = some j :=
    find?_range_of_first _ _ j hj hfirst hmatch
  simp only [extractSimpleFieldWithOffset]
  rw [hf]

theorem extractLiteral_absent (content name : String) (b : Nat)
    (h : ∀ i, i < (linesLF content).length → literalOpenAt name (linesLF content) i = none) :
    extractLiteralBlockWithOffset content name b = ⟨"", 0⟩ := by
  have hf : findLiteralOpen name (linesLF content) = none := by
    unfold findLiteralOpen
    rw [List.findSome?_eq_none_iff]
    intro i hi
    rw [h i (List.mem_range.mp hi)]
    rfl
  simp only [extractLiteralBlockWithOffset]
  rw [hf]

theorem extractSimple_absent (content name : String) (b : Nat)
    (h : ∀ i, i < (linesLF content).length → simpleMatchAt name (linesLF content) i = false) :
    extractSimpleFieldWithOffset content name b = ⟨"", 0⟩ := by
  have hf : (List.range (linesLF content).length).find?
      (simpleMatchAt name (linesLF content)) = none := by
    rw [List.find?_eq_none]
    intro i hi
    simp [h i (List.mem_range.mp hi)]
  simp only [extractSimpleFieldWithOffset]
  rw [hf]

/-! ### C9 — absent fields and first-match extraction -/

/-- C9: a field with no matching line extracts as empty text with offset 0
(and no exception, the extractors being total functions); when a match
exists, the extraction result is entirely determined by the *first*
matching line. -/
theorem c9_absent_and_first_match :
    (∀ content name b,
      (∀ i, i < (linesLF content).length → literalOpenAt name (linesLF content) i = none) →
      extractLiteralBlockWithOffset content name b = ⟨"", 0⟩) ∧
    (∀ content name b,
      (∀ i, i < (linesLF content).length → simpleMatchAt name (linesLF content) i = false) →
      extractSimpleFieldWithOffset content name b = ⟨"", 0⟩) ∧
    (∀ content name b j k, literalOpenAt name (linesLF content) j = some k →
      (∀ i, i < j → literalOpenAt name (linesLF content) i = none) →
      extractLiteralBlockWithOffset content name b =
        ⟨dedentLines (collectGo none (literalTailLines (linesLF content) k)),
         b + (j - blankRunBefore (linesLF content) j)⟩) ∧
    (∀ content name b j, simpleMatchAt name (linesLF content) j = true →
      (∀ i, i < j → simpleMatchAt name (linesLF content) i = false) →
      extractSimpleFieldWithOffset content name b =
        ⟨simpleValueAt name (linesLF content) j,
         b + (j - blankRunBefore (linesLF content) j)⟩) :=
  ⟨extractLiteral_absent, extractSimple_absent,
   fun content name b j k h1 h2 => extractLiteral_first content name b j k h1 h2,
   fun content name b j h1 h2 => extractSimple_first content name b j h1 h2⟩

/-- Witness for `c9_absent_and_first_match`: a content with no `prompt`
field and two `model` fields, of which the first wins. -/
theorem c9_absent_and_first_match_witness :
    extractLiteralBlockWithOffset "model: a\nmodel: b" "prompt" 0 = ⟨"", 0⟩ ∧
      extractSimpleFieldWithOffset "other: x\nmodel: a\nmodel: b" "model" 0 =
        ⟨"a", 1⟩ :=
  ⟨c9_absent_and_first_match.1 "model: a\nmodel: b" "prompt" 0 (by decide),
   (c9_absent_and_first_match.2.2.2 "other: x\nmodel: a\nmodel: b" "model" 0 1
      (by decide) (by decide)).trans (by decide)⟩

/-! ### C10 — zero-indent cutoff of the literal extractor -/

theorem blank_not_sibling {l : String} (h : blankLine l = true) :
    isSiblingKey l = false := by
  have hnil : l.data.dropWhile jsWs = [] :=
    List.dropWhile_eq_nil_iff.mpr fun x hx => List.all_eq_true.mp h x hx
  simp [isSiblingKey, hnil]

theorem blankLine_empty : blankLine "" = true := rfl

theorem dedentLines_blank : dedentLines [""] = "" := by decide

/-- C10: when the first non-blank line after the matched opener has zero
indentation, the literal extractor collects nothing: the field text is
empty (whatever comes later), while the field's line offset is still the
offset of the matched opener line. -/
theorem c10_zero_indent_empty (content name : String) (b j k : Nat)
    (hopen : literalOpenAt name (linesLF content) j = some k)
    (hfirst : ∀ i, i < j → literalOpenAt name (linesLF content) i = none)
    (hz : leadingWs ((((linesLF content).drop (k + 1)).dropWhile blankLine).headD "") = 0) :
    extractLiteralBlockWithOffset content name b =
      ⟨"", b + (j - blankRunBefore (linesLF content) j)⟩ := by
  rw [extractLiteral_first content name b j k hopen hfirst]
  have hcoll : collectGo none (literalTailLines (linesLF content) k) = [""] := by
    unfold literalTailLines
    cases hT : ((linesLF content).drop (k + 1)).dropWhile blankLine with
    | nil => simp [collectGo, blankLine_empty]
    | cons l rest =>
      have hnb : blankLine l = false := dropWhile_head_false hT
      rw [hT] at hz
      simp only [List.headD_cons] at hz
      simp [collectGo, blankLine_empty, hnb, hz]
  rw [hcoll, dedentLines_blank]

/-- Witness for `c10_zero_indent_empty`: the opener is followed by an
unindented line, so the field is empty even though later lines are
indented; the offset of the opener (line 1) is still reported. -/
theorem c10_zero_indent_empty_witness :
    extractLiteralBlockWithOffset "other: y\nprompt: |\nplain\n  indented" "prompt" 0 =
      ⟨"", 1⟩ :=
  (c10_zero_indent_empty "other: y\nprompt: |\nplain\n  indented" "prompt" 0 1 1
    (by decide) (by decide) (by decide)).trans (by decide)

/-! ### C4 — tolerant literal-block collection -/

theorem collectGo_some_eq (k : Nat) :
    ∀ ls : List String,
      collectGo (some k) ls = (ls.take (List.findIdx (stopperB k) ls)).map normBlank := by
  intro ls
  induction ls with
  | nil => simp [collectGo]
  | cons l rest ih =>
    by_cases hb : blankLine l = true
    · have hstop : stopperB k l = false := by
        simp [stopperB, blank_not_sibling hb]
      simp [collectGo, hb, List.findIdx_cons, hstop, ih, normBlank]
    · by_cases hs : (decide (leadingWs l < k) && isSiblingKey l) = true
      · have hstop : stopperB k l = true := hs
        simp only [collectGo, hb, if_false, Bool.false_eq_true]
        rw [if_pos (by simpa using hs)]
        simp [List.findIdx_cons, hstop]
      · have hstop : stopperB k l = false := by simpa [stopperB] using hs
        simp only [collectGo, hb, Bool.false_eq_true, if_false]
        rw [if_neg (by simpa using hs)]
        simp [List.findIdx_cons, hstop, ih, normBlank, hb]

/-- C4: once the first non-blank line fixes a positive base indent `k`,
the collection loop keeps every line — blank lines (as empty strings) and
lines of arbitrary indentation — up to but excluding the first line whose
indentation is strictly below `k` *and* which matches the sibling-key
pattern `^\s*\w+:\s*`; it runs to the end of the input when no such line
exists.  The second conjunct restates this through the extractor: the
extracted text is the dedent of exactly that prefix. -/
theorem c4_literal_tolerance :
    (∀ (ls : List String) (k : Nat), 0 < k →
      leadingWs ((ls.dropWhile blankLine).headD "") = k →
      collectGo none ls = (ls.take (List.findIdx (stopperB k) ls)).map normBlank) ∧
    (∀ (content name : String) (b j pk k : Nat),
      literalOpenAt name (linesLF content) j = some pk →
      (∀ i, i < j → literalOpenAt name (linesLF content) i = none) →
      0 < k →
      leadingWs (((literalTailLines (linesLF content) pk).dropWhile blankLine).headD "") = k →
      extractLiteralBlockWithOffset content name b =
        ⟨dedentLines (((literalTailLines (linesLF content) pk).take
            (List.findIdx (stopperB k) (literalTailLines (linesLF content) pk))).map normBlank),
         b + (j - blankRunBefore (linesLF content) j)⟩) := by
  have main : ∀ (ls : List String) (k : Nat), 0 < k →
      leadingWs ((ls.dropWhile blankLine).headD "") = k →
      collectGo none ls = (ls.take (List.findIdx (stopperB k) ls)).map normBlank := by
    intro ls k hk
    induction ls with
    | nil =>
      intro hfirst
      simp [leadingWs, emptyStr_data] at hfirst
      omega
    | cons l rest ih =>
      intro hfirst
      by_cases hb : blankLine l = true
      · rw [List.dropWhile_cons, if_pos hb] at hfirst
        have hstop : stopperB k l = false := by
          simp [stopperB, blank_not_sibling hb]
        simp [collectGo, hb, List.findIdx_cons, hstop, normBlank, ih hfirst]
      · rw [List.dropWhile_cons, if_neg (by simp [hb])] at hfirst
        simp only [List.headD_cons] at hfirst
        have hne : ¬ leadingWs l = 0 := by omega
        have hkne : ¬ k = 0 := by omega
        have hstop : stopperB k l = false := by
          simp [stopperB, hfirst]
        simp only [collectGo, hb, Bool.false_eq_true, if_false, hne, hfirst, hkne]
        rw [collectGo_some_eq k rest]
        simp [List.findIdx_cons, hstop, normBlank, hb]
  refine ⟨main, fun content name b j pk k h1 h2 hk hfirst => ?_⟩
  rw [extractLiteral_first content name b j pk h1 h2]
  rw [main (literalTailLines (linesLF content) pk) k hk hfirst]

/-- Witness for `c4_literal_tolerance`: base indent 2; a dedented list
line, a column-0 fenced-code line, and a blank line are all kept; the
dedented sibling key `x: 1` stops the collection. -/
theorem c4_literal_tolerance_witness :
    collectGo none ["  a", "", "- item", "```", "   b", "x: 1", "  c"] =
      ["  a", "", "- item", "```", "   b"] ∧
      List.findIdx (stopperB 2) ["  a", "", "- item", "```", "   b", "x: 1", "  c"] = 5 :=
  ⟨(c4_literal_tolerance.1 ["  a", "", "- item", "```", "   b", "x: 1", "  c"] 2
      (by decide) (by decide)).trans (by decide),
   by decide⟩

/-! ### C6 — interrupt pairing -/

theorem findIdx?_spec_str (p : String → Bool) :
    ∀ (l : List String) (i k : Nat), List.findIdx? p l i = some k →
      i ≤ k ∧ k - i < l.length ∧ p (l.getD (k - i) "") = true ∧
        ∀ j, j < k - i → p (l.getD j "") = false := by
  intro l
  induction l with
  | nil => intro i k h; exact absurd h (by simp)
  | cons x xs ih =>
    intro i k h
    rw [List.findIdx?_cons] at h
    split at h
    · rename_i hp
      have hik : i = k := by simpa using h
      subst hik
      refine ⟨le_rfl, by simp, by simpa using hp, fun j hj => by omega⟩
    · rename_i hp
      obtain ⟨h1, h2, h3, h4⟩ := ih (i + 1) k h
      have hki : k - i = (k - (i + 1)) + 1 := by omega
      refine ⟨by omega, by simp only [List.length_cons]; omega, ?_, ?_⟩
      · rw [hki, List.getD_cons_succ]
        exact h3
      · intro j hj
        match j with
        | 0 => simpa using hp
        | j' + 1 =>
          rw [List.getD_cons_succ]
          exact h4 j' (by omega)

theorem getD_drop_str (l : List String) (i j : Nat) :
    (l.drop i).getD j "" = l.getD (i + j) "" := by
  by_cases h : i + j < l.length
  · rw [List.getD_eq_getElem _ _ (by simp [List.length_drop]; omega),
      List.getD_eq_getElem _ _ h, List.getElem_drop]
  · rw [List.getD_eq_default _ _ (by simp [List.length_drop]; omega),
      List.getD_eq_default _ _ (by omega)]

theorem findMarkerLine_some_spec (lines : List String) (start m : Nat)
    (h : findMarkerLine lines start = (m : Int)) :
    start ≤ m ∧ m < lines.length ∧ pairAccept (lines.getD m "") = true ∧
      ∀ j, start ≤ j → j < m → pairAccept (lines.getD j "") = false := by
  unfold findMarkerLine at h
  cases hf : (lines.drop start).findIdx? pairAccept with
  | none => rw [hf] at h; exact absurd h (by simp)
  | some k =>
    rw [hf] at h
    have hm : m = start + k := by
      simp only [Option.some.injEq] at h ⊢
      omega
    subst hm
    obtain ⟨_, h2, h3, h4⟩ := findIdx?_spec_str pairAccept (lines.drop start) 0 k hf
    simp only [Nat.sub_zero, List.length_drop] at h2 h3 h4
    rw [getD_drop_str] at h3
    refine ⟨by omega, by omega, h3, fun j hj1 hj2 => ?_⟩
    have := h4 (j - start) (by omega)
    rw [getD_drop_str] at this
    rwa [Nat.add_sub_cancel' hj1] at this

theorem findMarkerLine_none_spec (lines : List String) (start : Nat)
    (h : findMarkerLine lines start = -1) :
    ∀ j, start ≤ j → j < lines.length → pairAccept (lines.getD j "") = false := by
  unfold findMarkerLine at h
  cases hf : (lines.drop start).findIdx? pairAccept with
  | some k =>
    rw [hf] at h
    exact absurd (show ((start + k : Nat) : Int) = -1 from h) (by omega)
  | none =>
    rw [List.findIdx?_eq_none_iff] at hf
    intro j hj1 hj2
    have hlen : j - start < (lines.drop start).length := by
      simp only [List.length_drop]
      omega
    have hmem : (lines.drop start).getD (j - start) "" ∈ lines.drop start := by
      rw [List.getD_eq_getElem _ _ hlen]
      exact List.getElem_mem hlen
    rw [getD_drop_str, Nat.add_sub_cancel' hj1] at hmem
    exact hf _ hmem

/-- C6 counterexample: an `**Interrupt:**` marker written with a leading
space passes `aiMarkerTest` and differs from the exact string compared by
the source, so interrupt 0 is paired with line 1 even though line 1 is
itself an Interrupt marker — not a label distinct from "Interrupt". -/
theorem c6_counterexample :
    findInterrupts ["**Interrupt:**", " **Interrupt:**"] = [(0, 1), (1, -1)] ∧
      interruptMarkerTest " **Interrupt:**" = true := by decide

/-- C6 (amended): each interrupt marker line is paired with the nearest
following line that matches the bolded-label pattern *and is not the exact
string `**Interrupt:**`* (so a whitespace-padded Interrupt line can be
chosen as the pair); an interrupt with no such following line consumes all
remaining lines of the field (joined and trimmed) as its body, windowed by
`Head(10)` (`limitLines · 10 true`). -/
theorem c6_interrupt_pairing :
    (∀ (lines : List String) (i : Nat), i < lines.length →
      interruptMarkerTest (lines.getD i "") = true →
      (i, findMarkerLine lines (i + 1)) ∈ findInterrupts lines) ∧
    (∀ (lines : List String) (i m : Nat), findMarkerLine lines (i + 1) = (m : Int) →
      i < m ∧ m < lines.length ∧ pairAccept (lines.getD m "") = true ∧
        ∀ j, i < j → j < m → pairAccept (lines.getD j "") = false) ∧
    (∀ (lines : List String) (i : Nat), findMarkerLine lines (i + 1) = -1 →
      ∀ j, i < j → j < lines.length → pairAccept (lines.getD j "") = false) ∧
    (∀ (lines : List String) (cur i : Nat),
      buildSegments lines cur [(i, -1)] =
        (if cur < i then
          adjustSegmentLineNumbers
            (truncateMiddle (joinNL (sliceLines lines cur i)) 4 8) cur
        else []) ++
        [⟨lines.getD i "", (i : Int), (i : Int)⟩] ++
        (if jsTrim (joinNL (lines.drop (i + 1))) = "" then []
         else adjustSegmentLineNumbers
           (limitLines (jsTrim (joinNL (lines.drop (i + 1)))) 10 true) (i + 1))) := by
  refine ⟨?_, ?_, ?_, ?_⟩
  · intro lines i hi htest
    unfold findInterrupts
    rw [List.mem_filterMap]
    exact ⟨i, List.mem_range.mpr hi, by rw [htest]; rfl⟩
  · intro lines i m h
    obtain ⟨h1, h2, h3, h4⟩ := findMarkerLine_some_spec lines (i + 1) m h
    exact ⟨by omega, h2, h3, fun j hj1 hj2 => h4 j (by omega) hj2⟩
  · intro lines i h
    intro j hj1 hj2
    exact findMarkerLine_none_spec lines (i + 1) h j (by omega) hj2
  · intro lines cur i
    simp [buildSegments]

/-- Witness for `c6_interrupt_pairing`: a paired interrupt, and an
unpaired one whose body is the single remaining line under `Head(10)`. -/
theorem c6_interrupt_pairing_witness :
    ((0 : Nat), (2 : Int)) ∈ findInterrupts ["**Interrupt:**", "x", "**Thinking:** done"] ∧
      pairAccept (["**Interrupt:**", "x", "**Thinking:** done"].getD 2 "") = true ∧
      buildSegments ["**Interrupt:**", "y"] 0 [(0, -1)] =
        [⟨"**Interrupt:**", 0, 0⟩, ⟨"y", 1, 1⟩] :=
  ⟨by
    have h := c6_interrupt_pairing.1 ["**Interrupt:**", "x", "**Thinking:** done"] 0
      (by decide) (by decide)
    rwa [show findMarkerLine ["**Interrupt:**", "x", "**Thinking:** done"] (0 + 1) =
      (2 : Int) from by decide] at h,
   (c6_interrupt_pairing.2.1 ["**Interrupt:**", "x", "**Thinking:** done"] 0 2
      (by decide)).2.2.1,
   (c6_interrupt_pairing.2.2.2 ["**Interrupt:**", "y"] 0 0).trans (by decide)⟩

/-! ### C3 — line-counting lemmas -/

theorem splitCRLF_ne_nil : ∀ cs, splitCRLF cs ≠ [] := by
  intro cs
  induction cs using splitCRLF.induct with
  | case1 => simp [splitCRLF]
  | case2 rest ih => simp [splitCRLF]
  | case3 rest ih => simp [splitCRLF]
  | case4 c rest h1 h2 hnil ih => exact (ih hnil).elim
  | case5 c rest h1 h2 l ls heq ih =>
    simp only [splitCRLF, heq]
    simp

theorem splitCRLF_length : ∀ cs : List Char,
    (splitCRLF cs).length = cs.count '\n' + 1 := by
  intro cs
  induction cs using splitCRLF.induct with
  | case1 => simp [splitCRLF]
  | case2 rest ih => simp [splitCRLF, ih, List.count_cons]
  | case3 rest ih => simp [splitCRLF, ih, List.count_cons]
  | case4 c rest h1 h2 hnil ih => exact (splitCRLF_ne_nil rest hnil).elim
  | case5 c rest h1 h2 l ls heq ih =>
    simp only [splitCRLF, heq]
    rw [heq] at ih
    simp only [List.length_cons] at ih ⊢
    have hc : ¬ c = '\n' := h2
    simp [List.count_cons, hc]
    omega

theorem splitCRLF_no_nl : ∀ cs, ∀ l ∈ splitCRLF cs, '\n' ∉ l := by
  intro cs
  induction cs using splitCRLF.induct with
  | case1 => intro l hl; simp [splitCRLF] at hl; simp [hl]
  | case2 rest ih =>
    intro l hl
    simp only [splitCRLF, List.mem_cons] at hl
    rcases hl with h | h
    · simp [h]
    · exact ih l h
  | case3 rest ih =>
    intro l hl
    simp only [splitCRLF, List.mem_cons] at hl
    rcases hl with h | h
    · simp [h]
    · exact ih l h
  | case4 c rest h1 h2 hnil ih => exact (splitCRLF_ne_nil rest hnil).elim
  | case5 c rest h1 h2 l0 ls heq ih =>
    intro l hl
    simp only [splitCRLF, heq, List.mem_cons] at hl
    have hc : ¬ c = '\n' := h2
    rcases hl with h | h
    · subst h
      intro hmem
      rcases List.mem_cons.mp hmem with h | h
      · exact hc h.symm
      · exact ih l0 (heq ▸ List.mem_cons_self l0 ls) h
    · exact ih l (heq ▸ List.mem_cons.mpr (Or.inr h))

theorem numLines_pos (s : String) : 1 ≤ numLines s := by
  unfold numLines linesCRLF
  have := splitCRLF_ne_nil s.data
  simp only [List.length_map]
  cases h : splitCRLF s.data with
  | nil => exact absurd h this
  | cons a l => simp

theorem numLines_count (s : String) : numLines s = s.data.count '\n' + 1 := by
  unfold numLines linesCRLF
  rw [List.length_map, splitCRLF_length]

theorem linesCRLF_no_nl (s : String) : ∀ l ∈ linesCRLF s, '\n' ∉ l.data := by
  intro l hl
  unfold linesCRLF at hl
  rcases List.mem_map.mp hl with ⟨cs, hcs, hmk⟩
  subst hmk
  exact splitCRLF_no_nl s.data cs hcs

theorem count_dropWhile_le {p : Char → Bool} (c : Char) :
    ∀ l : List Char, (l.dropWhile p).count c ≤ l.count c := by
  intro l
  induction l with
  | nil => simp
  | cons x xs ih =>
    rw [List.dropWhile_cons]
    split
    · exact ih.trans (by rw [List.count_cons]; split <;> omega)
    · exact le_rfl

theorem countNL_trim_le (x : List Char) :
    (jsTrimL x).count '\n' ≤ x.count '\n' := by
  unfold jsTrimL dropEndWs
  calc ((x.dropWhile jsWs).reverse.dropWhile jsWs).reverse.count '\n'
      = ((x.dropWhile jsWs).reverse.dropWhile jsWs).count '\n' := List.count_reverse _ _
    _ ≤ (x.dropWhile jsWs).reverse.count '\n' := count_dropWhile_le _ _
    _ = (x.dropWhile jsWs).count '\n' := List.count_reverse _ _
    _ ≤ x.count '\n' := count_dropWhile_le _ _

theorem joinNLc_count : ∀ ls : List (List Char), (∀ l ∈ ls, '\n' ∉ l) →
    ls ≠ [] → (joinNLc ls).count '\n' + 1 = ls.length := by
  intro ls
  induction ls with
  | nil => intro _ h; exact absurd rfl h
  | cons l rest ih =>
    intro h _
    have hl : l.count '\n' = 0 :=
      List.count_eq_zero.mpr (h l (List.mem_cons_self _ _))
    cases rest with
    | nil => simp [joinNLc, hl]
    | cons r rs =>
      have hrec := ih (fun x hx => h x (List.mem_cons.mpr (Or.inr hx))) (by simp)
      simp only [joinNLc, List.count_append, List.count_cons, List.length_cons, hl] at hrec ⊢
      simp at hrec ⊢
      omega

theorem numLines_joinNL_le (sl : List String) (hne : sl ≠ [])
    (hcl : ∀ l ∈ sl, '\n' ∉ l.data) :
    numLines (joinNL sl) ≤ sl.length := by
  have hc : (joinNLc (sl.map String.data)).count '\n' + 1 = sl.length := by
    have hmem : ∀ l ∈ sl.map String.data, '\n' ∉ l := by
      intro l hl
      rcases List.mem_map.mp hl with ⟨s, hs, hmk⟩
      subst hmk
      exact hcl s hs
    have := joinNLc_count (sl.map String.data) hmem (by simpa using hne)
    simpa using this
  have hln : 1 ≤ sl.length := by
    cases sl with
    | nil => exact absurd rfl hne
    | cons a l => simp
  rw [numLines_count]
  have hdata : (joinNL sl).data = joinNLc (sl.map String.data) := rfl
  rw [hdata]
  omega

theorem numLines_trim_joinNL_le (sl : List String) (hne : sl ≠ [])
    (hcl : ∀ l ∈ sl, '\n' ∉ l.data) :
    numLines (jsTrim (joinNL sl)) ≤ sl.length := by
  have h1 := numLines_joinNL_le sl hne hcl
  have h2 : (jsTrimL (joinNL sl).data).count '\n' ≤ (joinNL sl).data.count '\n' :=
    countNL_trim_le _
  rw [numLines_count] at h1 ⊢
  have hdata : (jsTrim (joinNL sl)).data = jsTrimL (joinNL sl).data := rfl
  rw [hdata]
  omega

/-! ### C3 — chain lemmas -/

theorem chainBetween_nil (lo hi : Int) : chainBetween lo hi [] = true := rfl

theorem chainBetween_cons {lo hi a b : Int} {r : List (Int × Int)} :
    chainBetween lo hi ((a, b) :: r) = true ↔
      lo ≤ a ∧ a ≤ b ∧ b ≤ hi ∧ chainBetween (b + 1) hi r = true := by
  simp [chainBetween, Bool.and_eq_true, decide_eq_true_eq, and_assoc]

theorem chainBetween_mono {lo hi lo' hi' : Int} :
    ∀ {l : List (Int × Int)}, chainBetween lo hi l = true → lo' ≤ lo → hi ≤ hi' →
      chainBetween lo' hi' l = true := by
  intro l
  induction l generalizing lo lo' with
  | nil => intro _ _ _; rfl
  | cons p r ih =>
    obtain ⟨a, b⟩ := p
    intro h h1 h2
    obtain ⟨ha, hab, hb, hr⟩ := chainBetween_cons.mp h
    exact chainBetween_cons.mpr ⟨by omega, hab, by omega, ih hr le_rfl h2⟩

theorem chainBetween_append {h1 h2 : Int} :
    ∀ {A B : List (Int × Int)} {lo : Int}, chainBetween lo h1 A = true →
      chainBetween (h1 + 1) h2 B = true → lo ≤ h1 + 1 → h1 ≤ h2 →
      chainBetween lo h2 (A ++ B) = true := by
  intro A
  induction A with
  | nil =>
    intro B lo hA hB hlo hh
    exact chainBetween_mono hB hlo le_rfl
  | cons p A' ih =>
    obtain ⟨a, b⟩ := p
    intro B lo hA hB hlo hh
    obtain ⟨ha, hab, hb, hr⟩ := chainBetween_cons.mp hA
    exact chainBetween_cons.mpr
      ⟨ha, hab, by omega, ih hr hB (by omega) hh⟩

theorem chainBetween_chainFrom {lo hi : Int} :
    ∀ {l : List (Int × Int)}, chainBetween lo hi l = true → chainFrom lo l = true := by
  intro l
  induction l generalizing lo with
  | nil => intro _; rfl
  | cons p r ih =>
    obtain ⟨a, b⟩ := p
    intro h
    obtain ⟨ha, hab, hb, hr⟩ := chainBetween_cons.mp h
    simp only [chainFrom, Bool.and_eq_true, decide_eq_true_eq]
    exact ⟨⟨ha, hab⟩, ih hr⟩

theorem mappedRanges_nil : mappedRanges [] = [] := rfl

theorem mappedRanges_append (A B : List TruncatedSegment) :
    mappedRanges (A ++ B) = mappedRanges A ++ mappedRanges B :=
  List.filterMap_append _ _ _

/-! ### C3 — explicit forms of the windowing functions -/

theorem limitLines_small {t : String} {n : Nat} (b : Bool) (ht : t ≠ "")
    (hle : numLines t ≤ n) :
    limitLines t n b = [⟨t, 0, (numLines t : Int) - 1⟩] := by
  simp only [limitLines, numLines, linesCRLF] at hle ⊢
  rw [if_neg ht, if_pos hle]

theorem limitLines_head {t : String} {n : Nat} (ht : t ≠ "")
    (hgt : ¬ numLines t ≤ n) :
    limitLines t n true =
      [⟨joinNL ((linesCRLF t).take n), 0, (n : Int) - 1⟩,
       ⟨"*... (" ++ natStr (numLines t - n) ++ " more lines)*", -1, -1⟩] := by
  simp only [limitLines, numLines, linesCRLF] at hgt ⊢
  rw [if_neg ht, if_neg hgt]
  simp

theorem limitLines_tail {t : String} {n : Nat} (ht : t ≠ "")
    (hgt : ¬ numLines t ≤ n) :
    limitLines t n false =
      [⟨"*... (" ++ natStr (numLines t - n) ++ " lines above)*", -1, -1⟩,
       ⟨joinNL ((linesCRLF t).drop (numLines t - n)),
        ((numLines t - n : Nat) : Int), (numLines t : Int) - 1⟩] := by
  simp only [limitLines, numLines, linesCRLF] at hgt ⊢
  rw [if_neg ht, if_neg hgt]
  simp

theorem truncateMiddle_small {t : String} {f l : Nat} (ht : t ≠ "")
    (hle : numLines t ≤ f + l) :
    truncateMiddle t f l = [⟨t, 0, (numLines t : Int) - 1⟩] := by
  simp only [truncateMiddle, numLines, linesCRLF] at hle ⊢
  rw [if_neg ht, if_pos hle]

theorem truncateMiddle_big {t : String} {f l : Nat} (ht : t ≠ "")
    (hgt : ¬ numLines t ≤ f + l) :
    truncateMiddle t f l =
      [⟨joinNL ((linesCRLF t).take f), 0, (f : Int) - 1⟩,
       ⟨"*... (" ++ natStr (numLines t - f - l) ++ " lines)*", -1, -1⟩,
       ⟨joinNL ((linesCRLF t).drop (numLines t - l)),
        ((numLines t - l : Nat) : Int), (numLines t : Int) - 1⟩] := by
  simp only [truncateMiddle, numLines, linesCRLF] at hgt ⊢
  rw [if_neg ht, if_neg hgt]

/-! ### C3 — chain facts for windowed chunks -/

theorem adjLimit_chain (t : String) (n off : Nat) (b : Bool) (hn : 0 < n) :
    chainBetween (off : Int) ((off : Int) + (numLines t : Int) - 1)
      (mappedRanges (adjustSegmentLineNumbers (limitLines t n b) off)) = true := by
  by_cases ht : t = ""
  · subst ht
    rfl
  · have hL : 1 ≤ numLines t := numLines_pos t
    by_cases hle : numLines t ≤ n
    · rw [limitLines_small b ht hle]
      have h1 : (0 : Int) ≤ (numLines t : Int) - 1 := by omega
      simp [adjustSegmentLineNumbers, mappedRanges, chainBetween, h1]
      omega
    · cases b
      · rw [limitLines_tail ht hle]
        have hs : (0 : Int) ≤ ((numLines t - n : Nat) : Int) := by omega
        have he : (0 : Int) ≤ (numLines t : Int) - 1 := by omega
        simp [adjustSegmentLineNumbers, mappedRanges, chainBetween, hs, he]
        omega
      · rw [limitLines_head ht hle]
        have he : (0 : Int) ≤ (n : Int) - 1 := by omega
        simp [adjustSegmentLineNumbers, mappedRanges, chainBetween, he]
        omega

theorem adjTrunc_chain (t : String) (f l off : Nat) (hf : 0 < f) (hl : 0 < l) :
    chainBetween (off : Int) ((off : Int) + (numLines t : Int) - 1)
      (mappedRanges (adjustSegmentLineNumbers (truncateMiddle t f l) off)) = true := by
  by_cases ht : t = ""
  · subst ht
    rfl
  · have hL : 1 ≤ numLines t := numLines_pos t
    by_cases hle : numLines t ≤ f + l
    · rw [truncateMiddle_small ht hle]
      have h1 : (0 : Int) ≤ (numLines t : Int) - 1 := by omega
      simp [adjustSegmentLineNumbers, mappedRanges, chainBetween, h1]
      omega
    · rw [truncateMiddle_big ht hle]
      have hfe : (0 : Int) ≤ (f : Int) - 1 := by omega
      have hs : (0 : Int) ≤ ((numLines t - l : Nat) : Int) := by omega
      have he : (0 : Int) ≤ (numLines t : Int) - 1 := by omega
      simp [adjustSegmentLineNumbers, mappedRanges, chainBetween, hfe, hs, he]
      omega

/-! ### C3 — chain facts for the chunks of `buildSegments` -/

theorem chainBetween_single {lo hi x : Int} (h1 : lo ≤ x) (h2 : x ≤ hi) :
    chainBetween lo hi [(x, x)] = true :=
  chainBetween_cons.mpr ⟨h1, le_rfl, h2, rfl⟩

theorem sliceLines_clean (lines : List String)
    (hclean : ∀ l ∈ lines, '\n' ∉ l.data) (a b : Nat) :
    ∀ l ∈ sliceLines lines a b, '\n' ∉ l.data := fun l hl =>
  hclean l (List.mem_of_mem_drop (List.mem_of_mem_take hl))

theorem sliceLines_length (lines : List String) (a b : Nat) :
    (sliceLines lines a b).length ≤ b - a := by
  simp only [sliceLines, List.length_take, List.length_drop]
  omega

theorem sliceLines_ne_nil (lines : List String) (a b : Nat)
    (hab : a < b) (hb : a < lines.length) : sliceLines lines a b ≠ [] := by
  have : (sliceLines lines a b).length ≠ 0 := by
    simp only [sliceLines, List.length_take, List.length_drop]
    omega
  intro h
  rw [h] at this
  exact this rfl

theorem chunk_trunc_chain (lines : List String)
    (hclean : ∀ l ∈ lines, '\n' ∉ l.data) (a b : Nat)
    (hab : a < b) (hb : b ≤ lines.length) :
    chainBetween (a : Int) ((b : Int) - 1)
      (mappedRanges (adjustSegmentLineNumbers
        (truncateMiddle (joinNL (sliceLines lines a b)) 4 8) a)) = true := by
  have hne : sliceLines lines a b ≠ [] := sliceLines_ne_nil lines a b hab (by omega)
  have hL : numLines (joinNL (sliceLines lines a b)) ≤ b - a :=
    (numLines_joinNL_le _ hne (sliceLines_clean lines hclean a b)).trans
      (sliceLines_length lines a b)
  exact chainBetween_mono
    (adjTrunc_chain (joinNL (sliceLines lines a b)) 4 8 a (by omega) (by omega))
    le_rfl (by omega)

theorem chunk_limit_trim_chain (lines : List String)
    (hclean : ∀ l ∈ lines, '\n' ∉ l.data) (a b : Nat) (_hb : b ≤ lines.length) :
    chainBetween (a : Int) ((b : Int) - 1)
      (mappedRanges (if jsTrim (joinNL (sliceLines lines a b)) = "" then []
        else adjustSegmentLineNumbers
          (limitLines (jsTrim (joinNL (sliceLines lines a b))) 10 true) a)) = true := by
  by_cases hct : jsTrim (joinNL (sliceLines lines a b)) = ""
  · rw [if_pos hct]
    rfl
  · rw [if_neg hct]
    have hne : sliceLines lines a b ≠ [] := by
      intro h
      apply hct
      rw [h]
      rfl
    have hL : numLines (jsTrim (joinNL (sliceLines lines a b))) ≤ b - a :=
      (numLines_trim_joinNL_le _ hne (sliceLines_clean lines hclean a b)).trans
        (sliceLines_length lines a b)
    have hab : a < b := by
      rcases Nat.lt_or_ge a b with h | h
      · exact h
      · exact absurd (by simp [sliceLines, Nat.sub_eq_zero_of_le h]) hne
    exact chainBetween_mono
      (adjLimit_chain (jsTrim (joinNL (sliceLines lines a b))) 10 a true (by omega))
      le_rfl (by omega)

theorem chunk_limit_drop_chain (lines : List String)
    (hclean : ∀ l ∈ lines, '\n' ∉ l.data) (a : Nat) :
    chainBetween (a : Int) ((lines.length : Int) - 1)
      (mappedRanges (if jsTrim (joinNL (lines.drop a)) = "" then []
        else adjustSegmentLineNumbers
          (limitLines (jsTrim (joinNL (lines.drop a))) 10 true) a)) = true := by
  by_cases hct : jsTrim (joinNL (lines.drop a)) = ""
  · rw [if_pos hct]
    rfl
  · rw [if_neg hct]
    have hne : lines.drop a ≠ [] := by
      intro h
      apply hct
      rw [h]
      rfl
    have hcl : ∀ l ∈ lines.drop a, '\n' ∉ l.data :=
      fun l hl => hclean l (List.mem_of_mem_drop hl)
    have hL : numLines (jsTrim (joinNL (lines.drop a))) ≤ lines.length - a :=
      (numLines_trim_joinNL_le _ hne hcl).trans (by simp [List.length_drop])
    have ha : a < lines.length := by
      by_contra hcon
      push_neg at hcon
      exact hne (List.drop_eq_nil_of_le hcon)
    exact chainBetween_mono
      (adjLimit_chain (jsTrim (joinNL (lines.drop a))) 10 a true (by omega))
      le_rfl (by omega)

theorem mappedRanges_single (t : String) (x : Nat) :
    mappedRanges [⟨t, (x : Int), (x : Int)⟩] = [((x : Int), (x : Int))] := by
  simp [mappedRanges]

theorem markerBranch_chain (lines : List String)
    (hclean : ∀ l ∈ lines, '\n' ∉ l.data) (cur i mn next : Nat)
    (tailSegs : List TruncatedSegment)
    (hcur : cur ≤ i) (hi : i < lines.length) (him : i < mn) (hmnext : mn < next)
    (hnl : next ≤ lines.length)
    (htail : chainBetween (next : Int) ((lines.length : Int) - 1)
      (mappedRanges tailSegs) = true) :
    chainBetween (cur : Int) ((lines.length : Int) - 1)
      (mappedRanges (
        (if cur < i then
          adjustSegmentLineNumbers
            (truncateMiddle (joinNL (sliceLines lines cur i)) 4 8) cur
         else []) ++
        [⟨lines.getD i "", (i : Int), (i : Int)⟩] ++
        (if jsTrim (joinNL (sliceLines lines (i + 1) mn)) = "" then []
         else adjustSegmentLineNumbers
           (limitLines (jsTrim (joinNL (sliceLines lines (i + 1) mn))) 10 true) (i + 1)) ++
        [⟨lines.getD mn "", (mn : Int), (mn : Int)⟩] ++
        (if mn + 1 < next then
          adjustSegmentLineNumbers
            (truncateMiddle (joinNL (sliceLines lines (mn + 1) next)) 4 8) (mn + 1)
         else []) ++
        tailSegs)) = true := by
  have hpre : chainBetween (cur : Int) ((i : Int) - 1)
      (mappedRanges (if cur < i then
        adjustSegmentLineNumbers
          (truncateMiddle (joinNL (sliceLines lines cur i)) 4 8) cur
       else [])) = true := by
    by_cases hci : cur < i
    · rw [if_pos hci]
      exact chunk_trunc_chain lines hclean cur i hci (by omega)
    · rw [if_neg hci]
      rfl
  have hmark : chainBetween (i : Int) (i : Int)
      (mappedRanges [⟨lines.getD i "", (i : Int), (i : Int)⟩]) = true := by
    rw [mappedRanges_single]
    exact chainBetween_single le_rfl le_rfl
  have hcont := chunk_limit_trim_chain lines hclean (i + 1) mn (by omega)
  have hai : chainBetween (mn : Int) (mn : Int)
      (mappedRanges [⟨lines.getD mn "", (mn : Int), (mn : Int)⟩]) = true := by
    rw [mappedRanges_single]
    exact chainBetween_single le_rfl le_rfl
  have hafter : chainBetween ((mn : Int) + 1) ((next : Int) - 1)
      (mappedRanges (if mn + 1 < next then
        adjustSegmentLineNumbers
          (truncateMiddle (joinNL (sliceLines lines (mn + 1) next)) 4 8) (mn + 1)
       else [])) = true := by
    by_cases h2 : mn + 1 < next
    · rw [if_pos h2]
      exact chainBetween_mono
        (chunk_trunc_chain lines hclean (mn + 1) next h2 hnl) (by omega) le_rfl
    · rw [if_neg h2]
      rfl
  simp only [mappedRanges_append]
  have s1 := chainBetween_append hpre
    (chainBetween_mono hmark (by omega) le_rfl) (by omega) (by omega)
  have s2 := chainBetween_append s1
    (chainBetween_mono hcont (by omega) le_rfl) (by omega) (by omega)
  have s3 := chainBetween_append s2
    (chainBetween_mono hai (by omega) le_rfl) (by omega) (by omega)
  have s4 := chainBetween_append s3
    (chainBetween_mono hafter (by omega) le_rfl) (by omega) (by omega)
  have s5 := chainBetween_append s4
    (chainBetween_mono htail (by omega) le_rfl) (by omega) (by omega)
  exact s5

theorem sepOK_head {lines : List String} {c a : Nat} {b : Int}
    {r : List (Nat × Int)} (h : sepOK lines c ((a, b) :: r) = true) :
    c ≤ a ∧ a < lines.length := by
  simp only [sepOK, Bool.and_eq_true, decide_eq_true_eq] at h
  exact ⟨h.1.1, h.1.2⟩

theorem buildSegments_chain (lines : List String)
    (hclean : ∀ l ∈ lines, '\n' ∉ l.data) :
    ∀ (ints : List (Nat × Int)) (cur : Nat), sepOK lines cur ints = true →
      chainBetween (cur : Int) ((lines.length : Int) - 1)
        (mappedRanges (buildSegments lines cur ints)) = true := by
  intro ints
  induction ints with
  | nil => intro cur _; rfl
  | cons p rest ih =>
    obtain ⟨i, m⟩ := p
    intro cur hsep
    by_cases hm : (0 : Int) < m
    · -- paired-marker branch
      have hmeq : m = ((m.toNat : Nat) : Int) := (Int.toNat_of_nonneg hm.le).symm
      cases rest with
      | nil =>
        simp only [sepOK, Bool.and_eq_true, decide_eq_true_eq, if_pos hm] at hsep
        obtain ⟨⟨hcur, hilen⟩, ⟨him, hmnext⟩, -⟩ := hsep
        simp only [buildSegments, if_pos hm]
        rw [hmeq]
        simp only [Int.toNat_natCast]
        exact markerBranch_chain lines hclean cur i m.toNat lines.length
          (buildSegments lines lines.length []) hcur hilen him hmnext le_rfl rfl
      | cons q r2 =>
        obtain ⟨i2, m2⟩ := q
        simp only [sepOK, Bool.and_eq_true, decide_eq_true_eq, if_pos hm] at hsep
        obtain ⟨⟨hcur, hilen⟩, ⟨him, hmnext⟩, hrest⟩ := hsep
        have hi2 : i2 < lines.length := hrest.1.2
        have hrest2 : sepOK lines i2 ((i2, m2) :: r2) = true := by
          simp only [sepOK, Bool.and_eq_true, decide_eq_true_eq]
          exact hrest
        simp only [buildSegments, if_pos hm]
        rw [hmeq]
        simp only [Int.toNat_natCast]
        exact markerBranch_chain lines hclean cur i m.toNat i2
          (buildSegments lines i2 ((i2, m2) :: r2)) hcur hilen him hmnext
          (by omega) (ih i2 hrest2)
    · -- unpaired interrupt: must be last
      simp only [sepOK, Bool.and_eq_true, decide_eq_true_eq, if_neg hm] at hsep
      obtain ⟨⟨hcur, hilen⟩, hempty⟩ := hsep
      have hrest : rest = [] := List.isEmpty_iff.mp hempty
      subst hrest
      simp only [buildSegments, if_neg hm]
      have hpre : chainBetween (cur : Int) ((i : Int) - 1)
          (mappedRanges (if cur < i then
            adjustSegmentLineNumbers
              (truncateMiddle (joinNL (sliceLines lines cur i)) 4 8) cur
           else [])) = true := by
        by_cases hci : cur < i
        · rw [if_pos hci]
          exact chunk_trunc_chain lines hclean cur i hci (by omega)
        · rw [if_neg hci]
          rfl
      have hmark : chainBetween (i : Int) (i : Int)
          (mappedRanges [⟨lines.getD i "", (i : Int), (i : Int)⟩]) = true := by
        rw [mappedRanges_single]
        exact chainBetween_single le_rfl le_rfl
      have hrem := chunk_limit_drop_chain lines hclean (i + 1)
      simp only [mappedRanges_append]
      have s1 := chainBetween_append hpre
        (chainBetween_mono hmark (by omega) le_rfl) (by omega) (by omega)
      have s2 := chainBetween_append s1
        (chainBetween_mono hrem (by omega) le_rfl) (by omega) (by omega)
      exact chainBetween_append s2 rfl (by omega) (by omega)

theorem limit_chain0 (t : String) (n : Nat) (b : Bool) (hn : 0 < n) :
    chainBetween 0 ((numLines t : Int) - 1) (mappedRanges (limitLines t n b)) = true := by
  by_cases ht : t = ""
  · subst ht
    rfl
  · have hL : 1 ≤ numLines t := numLines_pos t
    by_cases hle : numLines t ≤ n
    · rw [limitLines_small b ht hle]
      have h1 : (0 : Int) ≤ (numLines t : Int) - 1 := by omega
      simp [mappedRanges, chainBetween, h1]
    · cases b
      · rw [limitLines_tail ht hle]
        have hs : (0 : Int) ≤ ((numLines t - n : Nat) : Int) := by omega
        have he : (0 : Int) ≤ (numLines t : Int) - 1 := by omega
        simp [mappedRanges, chainBetween, hs, he]
        omega
      · rw [limitLines_head ht hle]
        have he : (0 : Int) ≤ (n : Int) - 1 := by omega
        simp [mappedRanges, chainBetween, he]
        omega

theorem trunc_chain0 (t : String) (f l : Nat) (hf : 0 < f) (hl : 0 < l) :
    chainBetween 0 ((numLines t : Int) - 1) (mappedRanges (truncateMiddle t f l)) = true := by
  by_cases ht : t = ""
  · subst ht
    rfl
  · have hL : 1 ≤ numLines t := numLines_pos t
    by_cases hle : numLines t ≤ f + l
    · rw [truncateMiddle_small ht hle]
      have h1 : (0 : Int) ≤ (numLines t : Int) - 1 := by omega
      simp [mappedRanges, chainBetween, h1]
    · rw [truncateMiddle_big ht hle]
      have hfe : (0 : Int) ≤ (f : Int) - 1 := by omega
      have hs : (0 : Int) ≤ ((numLines t - l : Nat) : Int) := by omega
      have he : (0 : Int) ≤ (numLines t : Int) - 1 := by omega
      simp [mappedRanges, chainBetween, hfe, hs, he]
      omega

/-! ### C3 — the ordering claim -/

/-- C3 counterexample: a response whose first interrupt is paired with a
label that lies **beyond** the second interrupt (the exact line
`**Interrupt:**` is skipped by the pairing search) produces mapped
segments whose ranges go 0–0, 1–2, 3–3, 2–2, 3–3, 4–4: the starts are not
non-decreasing (3 is followed by 2) and the ranges 1–2, 2–2, and the two
copies of 3–3 overlap. -/
theorem c3_counterexample :
    mappedRanges (parseResponseWithInterrupts
        "**Interrupt:**\nx\n**Interrupt:**\n**Thinking:**\ny") =
      [(0, 0), (1, 2), (3, 3), (2, 2), (3, 3), (4, 4)] ∧
      chainFrom 0 (mappedRanges (parseResponseWithInterrupts
        "**Interrupt:**\nx\n**Interrupt:**\n**Thinking:**\ny")) = false := by decide

/-- C3 (amended): the ordering invariant — mapped segments in emission
order have strictly increasing, pairwise non-overlapping
`[sourceLineStart, sourceLineEnd]` ranges — holds for `Head`/`Tail`
windows of any positive size and `HeadTail` windows of any positive pair,
and for the interrupt-driven segmentation of the response field *provided*
the interrupt structure is well separated (`sepOK`): every paired label
precedes the next interrupt marker and only the last interrupt may lack a
pair.  (The counterexample shows the proviso is necessary.) -/
theorem c3_segment_ordering :
    (∀ (t : String) (n : Nat) (b : Bool), 0 < n →
      chainFrom 0 (mappedRanges (limitLines t n b)) = true) ∧
    (∀ (t : String) (f l : Nat), 0 < f → 0 < l →
      chainFrom 0 (mappedRanges (truncateMiddle t f l)) = true) ∧
    (∀ t : String, sepOK (linesCRLF t) 0 (findInterrupts (linesCRLF t)) = true →
      chainFrom 0 (mappedRanges (parseResponseWithInterrupts t)) = true) := by
  refine ⟨fun t n b hn => chainBetween_chainFrom (limit_chain0 t n b hn),
    fun t f l hf hl => chainBetween_chainFrom (trunc_chain0 t f l hf hl),
    fun t hsep => ?_⟩
  by_cases ht : t = ""
  · subst ht
    rfl
  · simp only [parseResponseWithInterrupts, if_neg ht]
    by_cases hint : findInterrupts (linesCRLF t) = []
    · rw [if_pos hint]
      exact chainBetween_chainFrom (limit_chain0 t 10 false (by omega))
    · rw [if_neg hint]
      have h := buildSegments_chain (linesCRLF t) (linesCRLF_no_nl t)
        (findInterrupts (linesCRLF t)) 0 hsep
      rw [Nat.cast_zero] at h
      exact chainBetween_chainFrom h

/-- Witness for `c3_segment_ordering`: a well-separated single-interrupt
response, a small `Tail` window, and a small `HeadTail` window. -/
theorem c3_segment_ordering_witness :
    chainFrom 0 (mappedRanges (limitLines "a\nb\nc" 2 false)) = true ∧
      chainFrom 0 (mappedRanges (truncateMiddle "a\nb\nc" 1 1)) = true ∧
      sepOK (linesCRLF "**Interrupt:**\ngo\n**Thinking:**\ndone") 0
        (findInterrupts (linesCRLF "**Interrupt:**\ngo\n**Thinking:**\ndone")) = true ∧
      chainFrom 0 (mappedRanges (parseResponseWithInterrupts
        "**Interrupt:**\ngo\n**Thinking:**\ndone")) = true :=
  ⟨c3_segment_ordering.1 "a\nb\nc" 2 false (by decide),
   c3_segment_ordering.2.1 "a\nb\nc" 1 1 (by decide) (by decide),
   by decide,
   c3_segment_ordering.2.2 "**Interrupt:**\ngo\n**Thinking:**\ndone" (by decide)⟩

/-! ### C1 — decimal numerals round-trip through the rewrite scanner -/

theorem digitVal_digitCh {d : Nat} (h : d < 10) : digitVal (digitCh d) = d := by
  interval_cases d <;> rfl

theorem digitCh_isDigit (d : Nat) : jsDigit (digitCh d) = true := by
  by_cases h : d < 10
  · interval_cases d <;> rfl
  · have hlen : (['0', '1', '2', '3', '4', '5', '6', '7', '8', '9'] : List Char).length ≤ d := by
      simp only [List.length_cons, List.length_nil]
      omega
    have : digitCh d = '9' := List.getD_eq_default _ _ hlen
    rw [this]
    rfl

theorem digitsVal_append_one (A : List Char) (c : Char) :
    digitsVal (A ++ [c]) = digitVal c + 10 * digitsVal A := by
  simp [digitsVal, List.reverse_append, Nat.ofDigits_cons]

theorem digitsVal_numeralAux : ∀ (fuel n : Nat), n < fuel →
    digitsVal (numeralAux fuel n) = n := by
  intro fuel
  induction fuel with
  | zero => intro n h; omega
  | succ f ih =>
    intro n h
    by_cases h10 : n < 10
    · simp only [numeralAux, if_pos h10]
      simp [digitsVal, digitVal_digitCh h10, Nat.ofDigits]
    · simp only [numeralAux, if_neg h10]
      rw [digitsVal_append_one, ih (n / 10) (by omega),
        digitVal_digitCh (Nat.mod_lt n (by omega))]
      omega

theorem digitsVal_numeralOf (n : Nat) : digitsVal (numeralOf n) = n :=
  digitsVal_numeralAux (n + 1) n (by omega)

theorem numeralAux_digits : ∀ (fuel n : Nat), ∀ c ∈ numeralAux fuel n,
    jsDigit c = true := by
  intro fuel
  induction fuel with
  | zero => intro n c hc; simp [numeralAux] at hc
  | succ f ih =>
    intro n c hc
    by_cases h10 : n < 10
    · simp only [numeralAux, if_pos h10, List.mem_singleton] at hc
      subst hc
      exact digitCh_isDigit n
    · simp only [numeralAux, if_neg h10, List.mem_append, List.mem_singleton] at hc
      rcases hc with h | h
      · exact ih (n / 10) c h
      · subst h
        exact digitCh_isDigit _


theorem numeralAux_ne_nil (fuel n : Nat) (h : n < fuel) :
    numeralAux fuel n ≠ [] := by
  cases fuel with
  | zero => omega
  | succ f =>
    by_cases h10 : n < 10 <;> simp [numeralAux, h10]

theorem numeralOf_ne_nil (n : Nat) : numeralOf n ≠ [] :=
  numeralAux_ne_nil (n + 1) n (by omega)

theorem takeWhile_all_append {p : Char → Bool} :
    ∀ (A : List Char) (rest : List Char), (∀ c ∈ A, p c = true) →
      (A ++ rest).takeWhile p = A ++ rest.takeWhile p := by
  intro A
  induction A with
  | nil => intro rest _; rfl
  | cons a A' ih =>
    intro rest h
    have ha : p a = true := h a (List.mem_cons_self _ _)
    simp only [List.cons_append, List.takeWhile_cons, ha, if_true]
    rw [ih rest (fun c hc => h c (List.mem_cons.mpr (Or.inr hc)))]

theorem takeWhile_digits_numeral (n : Nat) (t : List Char) :
    (numeralOf n ++ '"' :: t).takeWhile jsDigit = numeralOf n := by
  rw [takeWhile_all_append (numeralOf n) ('"' :: t) (numeralAux_digits (n + 1) n)]
  simp [List.takeWhile_cons, jsDigit]

theorem attrAt_pattern (n : Nat) (t : List Char) :
    attrAt (litPat ++ (numeralOf n ++ '"' :: t)) = some (n, t) := by
  have hpre : litPat.isPrefixOf (litPat ++ (numeralOf n ++ '"' :: t)) = true :=
    List.isPrefixOf_iff_prefix.mpr ⟨numeralOf n ++ '"' :: t, rfl⟩
  have hdrop : (litPat ++ (numeralOf n ++ '"' :: t)).drop litPat.length =
      numeralOf n ++ '"' :: t := List.drop_left _ _
  unfold attrAt
  rw [if_pos hpre, hdrop, takeWhile_digits_numeral]
  rw [if_neg (by simp [numeralOf_ne_nil n])]
  rw [List.drop_left]
  simp [digitsVal_numeralOf]

theorem attrAt_none_of_no_prefix {cs : List Char}
    (h : litPat.isPrefixOf cs = false) : attrAt cs = none := by
  unfold attrAt
  rw [if_neg (by simp [h])]

theorem attrAt_tail_length {cs : List Char} {v : Nat} {tail : List Char}
    (h : attrAt cs = some (v, tail)) : tail.length < cs.length := by
  unfold attrAt at h
  split at h
  · rename_i hpre
    split at h
    · exact absurd h (by simp)
    · split at h
      · rename_i tail2 heq
        have h2 : ((cs.drop litPat.length).drop
            ((cs.drop litPat.length).takeWhile jsDigit).length).length ≤
            (cs.drop litPat.length).length := by
          simp only [List.length_drop]
          omega
        have hcs : litPat.length ≤ cs.length :=
          List.IsPrefix.length_le (List.isPrefixOf_iff_prefix.mp hpre)
        rw [heq] at h2
        simp only [Option.some.injEq, Prod.mk.injEq] at h
        have ht : tail2 = tail := h.2
        subst ht
        simp only [List.length_cons, List.length_drop] at h2 ⊢
        have hl : litPat.length = 11 := by decide
        omega
      · exact absurd h (by simp)
  · exact absurd h (by simp)

theorem scanGo_cons (off f : Nat) (c : Char) (rest : List Char) :
    scanGo off (f + 1) (c :: rest) =
      match attrAt (c :: rest) with
      | some (v, tail) => litPat ++ numeralOf (v + off) ++ '"' :: scanGo off f tail
      | none => c :: scanGo off f rest := rfl

theorem scanGo_fuel_irrel (off : Nat) : ∀ (N : Nat) (cs : List Char) (f1 f2 : Nat),
    cs.length ≤ N → cs.length ≤ f1 → cs.length ≤ f2 →
    scanGo off f1 cs = scanGo off f2 cs := by
  intro N
  induction N with
  | zero =>
    intro cs f1 f2 h0 h1 h2
    have : cs = [] := List.eq_nil_of_length_eq_zero (by omega)
    subst this
    cases f1 <;> cases f2 <;> rfl
  | succ N ih =>
    intro cs f1 f2 hN h1 h2
    cases cs with
    | nil => cases f1 <;> cases f2 <;> rfl
    | cons c rest =>
      have hl : rest.length + 1 ≤ f1 ∧ rest.length + 1 ≤ f2 := by
        simp only [List.length_cons] at h1 h2
        exact ⟨h1, h2⟩
      obtain ⟨g1, rfl⟩ : ∃ g1, f1 = g1 + 1 := ⟨f1 - 1, by omega⟩
      obtain ⟨g2, rfl⟩ : ∃ g2, f2 = g2 + 1 := ⟨f2 - 1, by omega⟩
      rw [scanGo_cons, scanGo_cons]
      cases hA : attrAt (c :: rest) with
      | some vt =>
        obtain ⟨v, tail⟩ := vt
        have htail : tail.length < (c :: rest).length := attrAt_tail_length hA
        simp only [List.length_cons] at htail hN h1 h2
        dsimp only
        rw [ih tail g1 g2 (by omega) (by omega) (by omega)]
      | none =>
        simp only [List.length_cons] at hN h1 h2
        dsimp only
        rw [ih rest g1 g2 (by omega) (by omega) (by omega)]

theorem scanGo_eq_scanRewrite (off f : Nat) (cs : List Char) (h : cs.length ≤ f) :
    scanGo off f cs = scanRewrite off cs :=
  scanGo_fuel_irrel off cs.length cs f cs.length le_rfl h le_rfl

theorem scanRewrite_attr (off n : Nat) (t : List Char) :
    scanRewrite off (litPat ++ (numeralOf n ++ '"' :: t)) =
      litPat ++ (numeralOf (n + off) ++ '"' :: scanRewrite off t) := by
  have hcons : litPat ++ (numeralOf n ++ '"' :: t) =
      'd' :: ("ata-line=\"".data ++ (numeralOf n ++ '"' :: t)) := rfl
  show scanGo off (litPat ++ (numeralOf n ++ '"' :: t)).length
      (litPat ++ (numeralOf n ++ '"' :: t)) = _
  rw [hcons]
  have hlen : ('d' :: ("ata-line=\"".data ++ (numeralOf n ++ '"' :: t))).length =
      ("ata-line=\"".data ++ (numeralOf n ++ '"' :: t)).length + 1 := rfl
  rw [hlen, scanGo_cons]
  have hA : attrAt ('d' :: ("ata-line=\"".data ++ (numeralOf n ++ '"' :: t))) =
      some (n, t) := attrAt_pattern n t
  rw [hA]
  dsimp only
  have hfl : t.length ≤ ("ata-line=\"".data ++ (numeralOf n ++ '"' :: t)).length := by
    simp
    omega
  rw [scanGo_eq_scanRewrite off _ t hfl]
  simp [List.append_assoc]

theorem noLit_cons {c : Char} {s' tail : List Char}
    (h : noLitStartWithin (c :: s') tail = true) :
    litPat.isPrefixOf (c :: (s' ++ tail)) = false ∧
      noLitStartWithin s' tail = true := by
  unfold noLitStartWithin at h ⊢
  rw [List.all_eq_true] at h
  constructor
  · have h0 := h 0 (List.mem_range.mpr (by simp))
    simp only [List.cons_append, List.drop_zero, Bool.not_eq_true'] at h0
    exact h0
  · rw [List.all_eq_true]
    intro p hp
    have hp' : p + 1 ∈ List.range (c :: s').length := by
      rw [List.mem_range] at hp ⊢
      simp only [List.length_cons]
      omega
    have := h (p + 1) hp'
    simpa [List.cons_append, List.drop_succ_cons] using this

theorem scanRewrite_text (off : Nat) : ∀ (s tail : List Char),
    noLitStartWithin s tail = true →
    scanRewrite off (s ++ tail) = s ++ scanRewrite off tail := by
  intro s
  induction s with
  | nil => intro tail _; simp
  | cons c s' ih =>
    intro tail h
    obtain ⟨h0, h'⟩ := noLit_cons h
    have hA : attrAt (c :: (s' ++ tail)) = none := attrAt_none_of_no_prefix h0
    show scanGo off ((c :: s') ++ tail).length ((c :: s') ++ tail) = _
    have hcons : (c :: s') ++ tail = c :: (s' ++ tail) := rfl
    rw [hcons]
    have hlen : (c :: (s' ++ tail)).length = (s' ++ tail).length + 1 := rfl
    rw [hlen, scanGo_cons, hA]
    show c :: scanRewrite off (s' ++ tail) = _
    rw [ih tail h']
    rfl

/-! ### C1 — the rewrite over decomposed formatter output -/

theorem piecesStr_cons (p : HtmlPiece) (rest : List HtmlPiece) :
    piecesStr (p :: rest) = pieceStr p ++ piecesStr rest := rfl

theorem scanRewrite_pieces (off : Nat) : ∀ (ps : List HtmlPiece),
    safePieces ps = true →
    scanRewrite off (piecesStr ps) = piecesStr (shiftPieces off ps) := by
  intro ps
  induction ps with
  | nil => intro _; rfl
  | cons p rest ih =>
    intro h
    cases p with
    | attr n =>
      have hsafe : safePieces rest = true := h
      rw [piecesStr_cons]
      have hshape : pieceStr (HtmlPiece.attr n) ++ piecesStr rest =
          litPat ++ (numeralOf n ++ '"' :: piecesStr rest) := by
        simp [pieceStr, List.append_assoc]
      rw [hshape, scanRewrite_attr, ih hsafe]
      simp [shiftPieces, piecesStr_cons, pieceStr, List.append_assoc]
    | text s =>
      have hsplit : noLitStartWithin s.data (piecesStr rest) = true ∧
          safePieces rest = true := by
        have := h
        simp only [safePieces, Bool.and_eq_true] at this
        exact this
      rw [piecesStr_cons]
      show scanRewrite off (s.data ++ piecesStr rest) = _
      rw [scanRewrite_text off s.data (piecesStr rest) hsplit.1, ih hsplit.2]
      rfl

theorem splitLF_ne_nil : ∀ cs, splitLF cs ≠ [] := by
  intro cs
  induction cs using splitLF.induct with
  | case1 => simp [splitLF]
  | case2 rest ih => simp [splitLF]
  | case3 c rest h1 hnil ih => exact (ih hnil).elim
  | case4 c rest h1 l ls heq ih =>
    simp only [splitLF, heq]
    simp

theorem joinNLc_cons_ne_nil (x : List Char) (xs : List (List Char)) (hx : x ≠ []) :
    joinNLc (x :: xs) ≠ [] := by
  cases xs with
  | nil => simpa [joinNLc] using hx
  | cons y ys =>
    simp only [joinNLc]
    intro hcon
    rcases List.append_eq_nil.mp hcon with ⟨hx2, h2⟩
    exact absurd h2 (by simp)

theorem textWithBreaks_ne (s : String) : textWithBreaks s ≠ "" := by
  unfold textWithBreaks linesLF
  cases hs : splitLF s.data with
  | nil => exact absurd hs (splitLF_ne_nil s.data)
  | cons a t =>
    simp only [List.map_cons]
    intro hcon
    have hdata := congrArg String.data hcon
    have hhead : ((⟨a⟩ : String) ++ "  ").data = a ++ [' ', ' '] := by
      simp [String.data_append]
    simp only [joinNL, List.map_cons] at hdata
    have : joinNLc (((⟨a⟩ : String) ++ "  ").data ::
        ((t.map (fun l => (⟨l⟩ : String))).map (· ++ "  ")).map String.data) ≠ [] := by
      apply joinNLc_cons_ne_nil
      rw [hhead]
      simp
    exact this hdata

/-! ### C1 — the claim -/

set_option maxRecDepth 8000 in
/-- C1 counterexample: for a block at line 5 whose prompt field opens at
content line 0, the Field's absolute start line (`absoluteFieldStart`,
the value on the field wrapper) is 6, so the claim predicts the
formatter's `data-line="0"` to be rewritten to 0 + 6 + 0 = 6; the code
rewrites it to 7 (`<p data-line="7">` appears, `<p data-line="6">` does
not), because `renderSegments` is called with `promptLine + 1`. -/
theorem c1_counterexample :
    (parseAiYaml "prompt: |\n  hi\nresponse: |\n  ok").prompt.lineOffset = 0 ∧
      containsStr (generateAiContainerHTML "prompt: |\n  hi\nresponse: |\n  ok"
        (fun _ => "<p data-line=\"0\"></p>") 5) "<p data-line=\"7\">" = true ∧
      containsStr (generateAiContainerHTML "prompt: |\n  hi\nresponse: |\n  ok"
        (fun _ => "<p data-line=\"0\"></p>") 5) "<p data-line=\"6\">" = false := by
  decide

/-- C1 (amended): for every mapped segment, every `data-line` position
attribute in the formatter's output for that segment is rewritten to the
formatter's value plus `base + sourceLineStart`, and nothing else in the
markup changes (text chunks are preserved verbatim, synthetic segments get
no attribute); `generateAiContainerHTML` passes
`base = absoluteFieldStart + 1` — one *more* than the Field's absolute
start line, the extra 1 skipping the `name: |` opener line. -/
theorem c1_data_line_rewrite :
    (∀ (mdp : String → List HtmlPiece) (segs : List TruncatedSegment) (base : Nat),
      (∀ content, safePieces (mdp content) = true) →
      renderSegments (fun c => ⟨piecesStr (mdp c)⟩) segs base =
        joinNL (segs.map fun seg =>
          if seg.lineStart < 0 then
            "<p class=\"truncation-marker\">" ++ escapeHtml seg.text ++ "</p>"
          else
            ⟨piecesStr (shiftPieces (base + seg.lineStart.toNat)
              (mdp (textWithBreaks seg.text)))⟩)) ∧
    (∀ (raw : String) (mdRender : String → String) (s : Nat), raw ≠ "" →
      generateAiContainerHTML raw mdRender s =
        "<fieldset class=\"ai-container\" data-line=\"" ++ natStr s ++
        "\">\n  <legend>ai</legend>\n  <div class=\"ai-prompt\" data-line=\"" ++
        natStr (s + 1 + (parseAiYaml raw).prompt.lineOffset) ++ "\">" ++
        renderSegments mdRender (limitLines (parseAiYaml raw).prompt.content 10 true)
          (s + 1 + (parseAiYaml raw).prompt.lineOffset + 1) ++
        "</div>\n  <hr class=\"ai-separator\">\n  <div class=\"ai-response\" data-line=\"" ++
        natStr (s + 1 + (parseAiYaml raw).response.lineOffset) ++ "\">" ++
        renderSegments mdRender
          (parseResponseWithInterrupts (parseAiYaml raw).response.content)
          (s + 1 + (parseAiYaml raw).response.lineOffset + 1) ++
        "</div>\n</fieldset>\n") := by
  constructor
  · intro mdp segs base hsafe
    unfold renderSegments
    congr 1
    apply List.map_congr_left
    intro seg _
    by_cases hneg : seg.lineStart < 0
    · rw [if_pos hneg, if_pos hneg]
    · rw [if_neg hneg, if_neg hneg]
      unfold renderWithLineOffset
      rw [if_neg (textWithBreaks_ne seg.text)]
      have hdata : ((fun c => (⟨piecesStr (mdp c)⟩ : String)) (textWithBreaks seg.text)).data =
          piecesStr (mdp (textWithBreaks seg.text)) := rfl
      rw [hdata, scanRewrite_pieces _ _ (hsafe (textWithBreaks seg.text))]
  · intro raw mdRender s h
    simp only [generateAiContainerHTML, if_neg h]

set_option maxRecDepth 8000 in
/-- Witness for `c1_data_line_rewrite`: a single position attribute with
value 0 rendered for a mapped segment at `base = 7` comes back as
`data-line="7"`, and the assembler on a prompt-less/response-less block
produces the assembled template. -/
theorem c1_data_line_rewrite_witness :
    renderSegments (fun _ => (⟨piecesStr [HtmlPiece.attr 0]⟩ : String)) [⟨"x", 0, 0⟩] 7 =
        "data-line=\"7\"" ∧
      generateAiContainerHTML "model: m" (fun _ => "") 0 =
        "<fieldset class=\"ai-container\" data-line=\"0\">\n  <legend>ai</legend>\n  " ++
        "<div class=\"ai-prompt\" data-line=\"1\"></div>\n  <hr class=\"ai-separator\">\n  " ++
        "<div class=\"ai-response\" data-line=\"1\"></div>\n</fieldset>\n" :=
  ⟨(c1_data_line_rewrite.1 (fun _ => [HtmlPiece.attr 0]) [⟨"x", 0, 0⟩] 7
      (fun _ => (by decide : safePieces [HtmlPiece.attr 0] = true))).trans (by decide),
   (c1_data_line_rewrite.2 "model: m" (fun _ => "") 0 (by decide)).trans (by decide)⟩

end AiSpec
